import Mathlib

/-!
# Verification of the fgo-core request-authentication and battle-payload codec

Shallow embedding of `fgo_sdk`'s protocol core in Lean 4, translated from the
Python sources:

* `fgo_sdk/utils/battle_crypto.py` — `cat_game5`, `mouse_game5`,
  `calc_battle_status`;
* `fgo_sdk/services/battle.py` — `_create_battle_result`,
  `_generate_battle_logs`, the enemy-unique-id extraction of `battle_setup`;
* `fgo_sdk/client/auth.py` — `AuthHandler.get_auth_code`,
  `AuthHandler._load_rsa_key`, `AuthHandler.sign_data`.

Bytes are modelled as `Nat` values below 256 and byte strings as `List Nat`.
Machine integers are modelled as `Nat`/`Int` with explicit `% 2 ^ w` where
overflow matters.  Fallible operations return `Option`.  Third-party
primitives that the Python code calls (zlib's CRC-32, SHA-1, base64, gzip's
RFC 1952 framing, msgpack's wire format, py3rijndael's CBC mode and PKCS#7
padding) are implemented here from their published specifications; the
Rijndael block permutation itself is kept as an explicit parameter
constrained to be a length-preserving permutation of 32-byte blocks.
-/

set_option maxRecDepth 16000

/-- A byte string: every element is a byte value. -/
def IsBytes (l : List Nat) : Prop := ∀ x ∈ l, x < 256

instance : DecidablePred IsBytes := fun l =>
  inferInstanceAs (Decidable (∀ x ∈ l, x < 256))

/-! ## CRC-32 (zlib `zlib.crc32`)

Implemented from ISO 3309 / RFC 1952 §8: reflected polynomial `0xEDB88320`,
initial value `0xFFFFFFFF`, final complement. -/

/-- One CRC-32 bit step: shift right, conditionally xor the polynomial. -/
def crcBitStep (c : Nat) : Nat :=
  if c % 2 = 1 then (c / 2) ^^^ 0xEDB88320 else c / 2

/-- Iterate the bit step. -/
def crcBits : Nat → Nat → Nat
  | 0, c => c
  | k + 1, c => crcBits k (crcBitStep c)

/-- Absorb one byte into the running CRC. -/
def crcByteStep (c b : Nat) : Nat := crcBits 8 (c ^^^ b)

/-- `zlib.crc32(data)` for a byte string. -/
def crc32 (data : List Nat) : Nat :=
  (data.foldl crcByteStep 0xFFFFFFFF) ^^^ 0xFFFFFFFF

/-! ## `struct.pack('<5q', ...)` — signed little-endian 64-bit packing -/

/-- Little-endian byte rendering of `n` in `k` bytes (`n < 2 ^ (8 * k)`). -/
def bytesLE : Nat → Nat → List Nat
  | 0, _ => []
  | k + 1, n => n % 256 :: bytesLE k (n / 256)

/-- One signed 64-bit value packed little-endian, as `struct.pack('<q', v)`:
rejects values outside `[-2^63, 2^63)` (struct.error), otherwise emits the
8-byte little-endian two's-complement rendering. -/
def packInt64LE (v : Int) : Option (List Nat) :=
  if -(2 ^ 63) ≤ v ∧ v < 2 ^ 63 then some (bytesLE 8 (v % 2 ^ 64).toNat)
  else none

/-- `struct.pack('<5q', *vals)` (generalised to any count): all-or-nothing. -/
def packInt64s : List Int → Option (List Nat)
  | [] => some []
  | v :: vs => do
    let b ← packInt64LE v
    let rest ← packInt64s vs
    pure (b ++ rest)

/-! ## `calc_battle_status` (battle_crypto.py lines 79–100) -/

/-- `calc_battle_status(user_id, battle_id)` translated from the source:
builds the five signed values (with `num = 0`), packs them as `<5q`, then
returns `zlib.crc32(data) & 0xFFFFFFFF`.  `struct.pack` failure (a value
outside the signed 64-bit range) is `none`. -/
def calc_battle_status (user_id battle_id : Int) : Option Nat :=
  let num : Int := 0
  let battle_status : List Int :=
    [user_id + 1, num - 0x408FD5, num / 2, battle_id - 0x7FFFFFFF,
     num - 0x25ACF6]
  (packInt64s battle_status).map (fun data => crc32 data &&& 0xFFFFFFFF)

/-- The byte layout stated by the spec: the five signed 64-bit integers
`(userId + 1)`, `(0 − 0x408FD5)`, `(0 // 2)`, `(battleId − 0x7FFFFFFF)`,
`(0 − 0x25ACF6)` little-endian, concatenated (40 bytes total). -/
def specBattleStatusBytes (user_id battle_id : Int) : List Nat :=
  ([user_id + 1, -0x408FD5, 0, battle_id - 0x7FFFFFFF, -0x25ACF6]).flatMap
    (fun v => bytesLE 8 (v % 2 ^ 64).toNat)

/-! ### Helper lemmas for `calc_battle_status` -/

/-- On in-range inputs the `<5q` packing succeeds and produces exactly the
spec's 40-byte layout. -/
theorem packInt64s_battle_eq (u b : Int)
    (h1 : -(2 ^ 63) ≤ u + 1 ∧ u + 1 < 2 ^ 63)
    (h2 : -(2 ^ 63) ≤ b - 0x7FFFFFFF ∧ b - 0x7FFFFFFF < 2 ^ 63) :
    packInt64s [u + 1, (0 : Int) - 0x408FD5, (0 : Int) / 2,
        b - 0x7FFFFFFF, (0 : Int) - 0x25ACF6] =
      some (specBattleStatusBytes u b) := by
  have e1 : packInt64LE (u + 1) = some (bytesLE 8 ((u + 1) % 2 ^ 64).toNat) := by
    unfold packInt64LE; rw [if_pos h1]
  have e2 : packInt64LE ((0 : Int) - 0x408FD5) =
      some (bytesLE 8 (((0 : Int) - 0x408FD5) % 2 ^ 64).toNat) := by
    unfold packInt64LE; rw [if_pos (by norm_num)]
  have e3 : packInt64LE ((0 : Int) / 2) =
      some (bytesLE 8 (((0 : Int) / 2) % 2 ^ 64).toNat) := by
    unfold packInt64LE; rw [if_pos (by norm_num)]
  have e4 : packInt64LE (b - 0x7FFFFFFF) =
      some (bytesLE 8 ((b - 0x7FFFFFFF) % 2 ^ 64).toNat) := by
    unfold packInt64LE; rw [if_pos h2]
  have e5 : packInt64LE ((0 : Int) - 0x25ACF6) =
      some (bytesLE 8 (((0 : Int) - 0x25ACF6) % 2 ^ 64).toNat) := by
    unfold packInt64LE; rw [if_pos (by norm_num)]
  simp only [packInt64s, e1, e2, e3, e4, e5, Option.bind_eq_bind,
    Option.some_bind, Option.pure_def]
  norm_num [specBattleStatusBytes, List.flatMap]

/-- Masking with `0xFFFFFFFF` keeps the result below `2 ^ 32`. -/
theorem mask32_lt (n : Nat) : n &&& 0xFFFFFFFF < 2 ^ 32 :=
  Nat.lt_succ_of_le (Nat.and_le_right)

/-- C3: for every in-range `user_id`/`battle_id`, `calc_battle_status` equals
CRC32 (masked to 32 bits) of the 40-byte little-endian concatenation of the
five signed 64-bit integers `(user_id + 1)`, `(0 - 0x408FD5)`, `(0 // 2)`,
`(battle_id - 0x7FFFFFFF)`, `(0 - 0x25ACF6)`; and at the golden point
`(12345, 67890)` it takes the fixed reference value `2230354090`. -/
theorem calc_battle_status_matches_spec (u b : Int)
    (h1 : -(2 ^ 63) ≤ u + 1 ∧ u + 1 < 2 ^ 63)
    (h2 : -(2 ^ 63) ≤ b - 0x7FFFFFFF ∧ b - 0x7FFFFFFF < 2 ^ 63) :
    calc_battle_status u b =
        some (crc32 (specBattleStatusBytes u b) &&& 0xFFFFFFFF) ∧
      calc_battle_status 12345 67890 = some 2230354090 := by
  refine ⟨?_, by decide⟩
  simp only [calc_battle_status]
  rw [packInt64s_battle_eq u b h1 h2]
  rfl

/-- Witness for `calc_battle_status_matches_spec` at the golden point. -/
theorem calc_battle_status_matches_spec_witness :
    calc_battle_status 12345 67890 =
        some (crc32 (specBattleStatusBytes 12345 67890) &&& 0xFFFFFFFF) ∧
      calc_battle_status 12345 67890 = some 2230354090 :=
  calc_battle_status_matches_spec 12345 67890 (by norm_num) (by norm_num)

/-- C10: `calc_battle_status` succeeds with a value below `2 ^ 32` exactly on
inputs where all five packed values fit in a signed 64-bit integer (the three
constants always do, so the conditions are on `user_id + 1` and
`battle_id - 0x7FFFFFFF`); outside those bounds the packing step rejects the
input (`none`) rather than wrapping. -/
theorem calc_battle_status_total_in_bounds (u b : Int) :
    (((-(2 ^ 63) ≤ u + 1 ∧ u + 1 < 2 ^ 63) ∧
        (-(2 ^ 63) ≤ b - 0x7FFFFFFF ∧ b - 0x7FFFFFFF < 2 ^ 63)) →
      ∃ r, calc_battle_status u b = some r ∧ r < 2 ^ 32) ∧
    (¬((-(2 ^ 63) ≤ u + 1 ∧ u + 1 < 2 ^ 63) ∧
        (-(2 ^ 63) ≤ b - 0x7FFFFFFF ∧ b - 0x7FFFFFFF < 2 ^ 63)) →
      calc_battle_status u b = none) := by
  constructor
  · rintro ⟨h1, h2⟩
    refine ⟨crc32 (specBattleStatusBytes u b) &&& 0xFFFFFFFF, ?_, mask32_lt _⟩
    simp only [calc_battle_status]
    rw [packInt64s_battle_eq u b h1 h2]
    rfl
  · intro h
    simp only [calc_battle_status]
    rcases Decidable.not_and_iff_or_not.mp h with h1 | h2
    · have e1 : packInt64LE (u + 1) = none := by
        unfold packInt64LE; rw [if_neg h1]
      simp [packInt64s, e1]
    · have e4 : packInt64LE (b - 0x7FFFFFFF) = none := by
        unfold packInt64LE; rw [if_neg h2]
      have e2 : packInt64LE ((0 : Int) - 0x408FD5) =
          some (bytesLE 8 (((0 : Int) - 0x408FD5) % 2 ^ 64).toNat) := by
        unfold packInt64LE; rw [if_pos (by norm_num)]
      have e3 : packInt64LE ((0 : Int) / 2) =
          some (bytesLE 8 (((0 : Int) / 2) % 2 ^ 64).toNat) := by
        unfold packInt64LE; rw [if_pos (by norm_num)]
      cases hp : packInt64LE (u + 1) with
      | none => simp [packInt64s, hp]
      | some b1 => simp [packInt64s, hp, e2, e3, e4]

/-- Witness for `calc_battle_status_total_in_bounds`: in-bounds at
`(12345, 67890)` and out-of-bounds at `(2 ^ 63, 0)`. -/
theorem calc_battle_status_total_in_bounds_witness :
    (∃ r, calc_battle_status 12345 67890 = some r ∧ r < 2 ^ 32) ∧
      calc_battle_status (2 ^ 63) 0 = none :=
  ⟨(calc_battle_status_total_in_bounds 12345 67890).1 (by norm_num),
   (calc_battle_status_total_in_bounds (2 ^ 63) 0).2 (by norm_num)⟩

/-! ## Battle payload building (`services/battle.py`)

`random.choice` is modelled by an explicit oracle `rnd : Nat → Nat` giving
the index chosen at each successive call (reduced modulo the pool size), so
that the pseudo-random generator is an explicit input of the embedding. -/

/-- `BATTLE_LOGS_LIST` (battle.py lines 19–23). -/
def BATTLE_LOGS_LIST : List String :=
  ["1B", "1C", "1D", "2B", "2C", "2D", "3B", "3C", "3D"]

/-- `BattleService._generate_battle_logs` (battle.py lines 304–325):
`svt_count = min(my_deck_svt_count, 3)`, the card pool is the first
`svt_count * 3` entries of `BATTLE_LOGS_LIST`, and `3 * enemy_deck_pages`
pseudo-random picks are concatenated.  (For an empty pool — zero servants —
`random.choice` would raise; the claims never touch that case and the model
returns `""` for such a pick.) -/
def generate_battle_logs (rnd : Nat → Nat)
    (enemy_deck_pages my_deck_svt_count : Nat) : String :=
  let svt_count := min my_deck_svt_count 3
  let available_cards := BATTLE_LOGS_LIST.take (svt_count * 3)
  (List.range (enemy_deck_pages * 3)).foldl
    (fun logs k => logs ++ available_cards.getD (rnd k % available_cards.length) "")
    ""

/-- The log selection of `_create_battle_result` (battle.py lines 250–254):
`if custom_logs: logs = custom_logs else: logs = self._generate_battle_logs(...)`.
Python truthiness makes both `None` and `""` fall to the generated branch. -/
def createBattleLogs (rnd : Nat → Nat) (custom_logs : Option String)
    (enemy_deck_pages my_deck_svt_count : Nat) : String :=
  match custom_logs with
  | some s =>
      if s ≠ "" then s
      else generate_battle_logs rnd enemy_deck_pages my_deck_svt_count
  | none => generate_battle_logs rnd enemy_deck_pages my_deck_svt_count

/-- The enemy-unique-id extraction of `BattleService.battle_setup`
(battle.py lines 121–125): ids are collected from the **last** wave page
only (`enemy_deck[-1]`), in order; an empty deck yields `[]`.  A wave page
is modelled by its list of `uniqueId`s. -/
def lastWaveUniqueIds (enemy_deck : List (List Nat)) : List Nat :=
  match enemy_deck.getLast? with
  | some last_page => last_page
  | none => []

/-- The defeated-target marker of `_create_battle_result` (battle.py line
257): `dt = "".join(f"u{uid}" for uid in enemy_unique_ids)`. -/
def dtString (enemy_unique_ids : List Nat) : String :=
  String.join (enemy_unique_ids.map (fun uid => "u" ++ toString uid))

/-- `used_turn_list` of `_create_battle_result` (battle.py line 265):
`[0] * (enemy_deck_pages - 1) + [1] if enemy_deck_pages > 0 else [1]`. -/
def usedTurnList (enemy_deck_pages : Nat) : List Nat :=
  if enemy_deck_pages > 0 then
    List.replicate (enemy_deck_pages - 1) 0 ++ [1]
  else [1]

/-- The manual padding strip of `mouse_game5` (battle_crypto.py lines
70–73): if the buffer is non-empty and its final byte `padding_len` is in
`1..=32` (`BLOCK_SIZE`), keep `decrypted[:-padding_len]`; otherwise return
the buffer unchanged.  The step is a total function — no code path raises. -/
def stripPad (decrypted : List Nat) : List Nat :=
  match decrypted.getLast? with
  | none => decrypted
  | some padding_len =>
      if 0 < padding_len ∧ padding_len ≤ 32 then
        decrypted.take (decrypted.length - padding_len)
      else decrypted

/-- C5: the per-wave turn-counter list has one entry per wave, `0` for every
wave but the last and `1` for the last (`[0] * (n-1) ++ [1]` for `n > 0`);
zero waves yield `[1]`; three waves yield `[0, 0, 1]`. -/
theorem usedTurnList_shape :
    (∀ n, 0 < n →
      usedTurnList n = List.replicate (n - 1) 0 ++ [1] ∧
        (usedTurnList n).length = n) ∧
    usedTurnList 0 = [1] ∧ usedTurnList 3 = [0, 0, 1] := by
  refine ⟨fun n hn => ⟨?_, ?_⟩, by decide, by decide⟩
  · simp [usedTurnList, hn]
  · simp [usedTurnList, hn]
    omega

/-- Witness for `usedTurnList_shape` at `n = 3`. -/
theorem usedTurnList_shape_witness :
    (usedTurnList 3 = List.replicate (3 - 1) 0 ++ [1] ∧
      (usedTurnList 3).length = 3) ∧
    usedTurnList 0 = [1] ∧ usedTurnList 3 = [0, 0, 1] :=
  ⟨usedTurnList_shape.1 3 (by decide), usedTurnList_shape.2⟩

/-- C6: for a non-empty list of enemy-wave pages the defeated-target marker
string concatenates `u<uniqueId>` over the **last** wave page only, in
order; `[[101, 102], [201]]` yields `"u201"`. -/
theorem dtString_last_wave (waves : List (List Nat)) (h : waves ≠ []) :
    dtString (lastWaveUniqueIds waves) =
        String.join ((waves.getLast h).map (fun uid => "u" ++ toString uid)) ∧
      dtString (lastWaveUniqueIds [[101, 102], [201]]) = "u201" := by
  refine ⟨?_, by decide⟩
  have : lastWaveUniqueIds waves = waves.getLast h := by
    unfold lastWaveUniqueIds
    rw [List.getLast?_eq_getLast waves h]
  rw [this, dtString]

/-- Witness for `dtString_last_wave` at `[[101, 102], [201]]`. -/
theorem dtString_last_wave_witness :
    dtString (lastWaveUniqueIds [[101, 102], [201]]) =
        String.join (([[101, 102], [201]].getLast (by decide)).map
          (fun uid => "u" ++ toString uid)) ∧
      dtString (lastWaveUniqueIds [[101, 102], [201]]) = "u201" :=
  dtString_last_wave [[101, 102], [201]] (by decide)

/-- C7 (counterexample): the claim says every caller-supplied log string is
used verbatim, but a supplied empty string is falsy in Python, so the code
generates a pseudo-random log instead of using `""`. -/
theorem createBattleLogs_empty_not_verbatim :
    ¬ (createBattleLogs (fun _ => 0) (some "") 1 3 = "") := by decide

/-- C7 (amended): every **non-empty** caller-supplied log string is used
verbatim; when the caller supplies nothing, or supplies the empty string,
the log is generated from the deck's slot subset instead. -/
theorem createBattleLogs_verbatim (rnd : Nat → Nat) (pages cnt : Nat)
    (s : String) (hs : s ≠ "") :
    createBattleLogs rnd (some s) pages cnt = s ∧
      createBattleLogs rnd none pages cnt = generate_battle_logs rnd pages cnt ∧
      createBattleLogs rnd (some "") pages cnt =
        generate_battle_logs rnd pages cnt := by
  refine ⟨?_, rfl, by simp [createBattleLogs]⟩
  simp [createBattleLogs, hs]

/-- Witness for `createBattleLogs_verbatim` at the caller log `"1C1D1B"`. -/
theorem createBattleLogs_verbatim_witness :
    createBattleLogs (fun _ => 0) (some "1C1D1B") 2 3 = "1C1D1B" ∧
      createBattleLogs (fun _ => 0) none 2 3 =
        generate_battle_logs (fun _ => 0) 2 3 ∧
      createBattleLogs (fun _ => 0) (some "") 2 3 =
        generate_battle_logs (fun _ => 0) 2 3 :=
  createBattleLogs_verbatim (fun _ => 0) 2 3 "1C1D1B" (by decide)

/-- C4 (counterexample): the claim says a trailing byte in `1..=32` causes
exactly that many bytes to be removed, but on the one-byte buffer `[5]` the
slice `decrypted[:-5]` removes only the single byte that exists. -/
theorem stripPad_short_buffer :
    ¬ (([5] : List Nat).length = (stripPad [5]).length + 5) := by decide

/-- C4 (amended): the padding-strip step never errors; a final byte of `0`
or above the 32-byte block size leaves the buffer as-is, and a final byte
`p` in `1..=32` removes `min p length` bytes — exactly `p` of them whenever
the buffer holds at least `p` bytes. -/
theorem stripPad_tolerant (d : List Nat) (p : Nat) (h : d.getLast? = some p) :
    ((p = 0 ∨ 32 < p) → stripPad d = d) ∧
      (0 < p → p ≤ 32 →
        stripPad d = d.take (d.length - p) ∧
          (stripPad d).length = d.length - p) := by
  have hd : stripPad d =
      if 0 < p ∧ p ≤ 32 then d.take (d.length - p) else d := by
    unfold stripPad; rw [h]
  constructor
  · intro hp
    rw [hd, if_neg (by omega)]
  · intro hp1 hp2
    have he : stripPad d = d.take (d.length - p) := by
      rw [hd, if_pos ⟨hp1, hp2⟩]
    refine ⟨he, ?_⟩
    rw [he, List.length_take]
    omega

/-- Witness for `stripPad_tolerant`: a tolerated buffer (final byte `0`) and
a stripped buffer (final byte `2` removes the last two bytes). -/
theorem stripPad_tolerant_witness :
    stripPad [7, 7, 0] = [7, 7, 0] ∧
      (stripPad [7, 7, 2] = ([7, 7, 2] : List Nat).take (3 - 2) ∧
        (stripPad [7, 7, 2]).length = 3 - 2) :=
  ⟨(stripPad_tolerant [7, 7, 0] 0 (by decide)).1 (Or.inl rfl),
   (stripPad_tolerant [7, 7, 2] 2 (by decide)).2 (by decide) (by decide)⟩

/-! ## RSA key loading temporality (`client/auth.py`)

The signing path performs exactly one kind of I/O — reading the private-key
file — so its temporal behaviour is embedded as the trace of file reads a
sequence of `sign_data` calls performs. -/

/-- Observable file-system events of the signing path. -/
inductive IoEvent
  | readKeyFile
deriving DecidableEq

/-- `AuthHandler._load_rsa_key` (auth.py lines 37–40): opens the key file,
reads the whole content (one read), releases the handle, parses the key. -/
def load_rsa_key_events : List IoEvent := [IoEvent.readKeyFile]

/-- `AuthHandler.sign_data` (auth.py lines 42–46): its body begins with
`private_key = self._load_rsa_key()`, so every call replays
`_load_rsa_key`'s file-system trace. -/
def sign_data_events : List IoEvent := load_rsa_key_events

/-- File-system trace of `n` successive `sign_data` calls on one client. -/
def signTraces (n : Nat) : List IoEvent :=
  (List.replicate n sign_data_events).flatten

/-- C9 (counterexample): after two signing invocations in one client
lifetime the key file has been read twice, not once — the key is not loaded
once per lifetime. -/
theorem sign_data_reloads_key :
    ¬ ((signTraces 2).count IoEvent.readKeyFile = 1) := by decide

/-- C9 (amended): the key material is read from the key file and parsed on
**every** signing invocation — `n` calls perform exactly `n` reads (each
call reads the file exactly once and releases the handle before signing). -/
theorem sign_data_reads_once_per_call (n : Nat) :
    (signTraces n).count IoEvent.readKeyFile = n := by
  induction n with
  | zero => rfl
  | succ k ih =>
      have : signTraces (k + 1) = sign_data_events ++ signTraces k := by
        simp [signTraces, List.replicate_succ]
      rw [this, List.count_append, ih]
      simp [sign_data_events, load_rsa_key_events]
      omega

/-! ## UTF-8 encoding (`str.encode("utf-8")`)

Python strings are modelled as `List Char` (Unicode code points, surrogates
excluded — exactly Lean's `Char`), and `str.encode("utf-8")` as the RFC 3629
encoder below. -/

/-- Python strings: lists of Unicode scalar values. -/
abbrev Chars := List Char

/-- RFC 3629 encoding of one code point `n < 0x110000`. -/
def utf8c (n : Nat) : List Nat :=
  if n < 0x80 then [n]
  else if n < 0x800 then [0xC0 + n / 64, 0x80 + n % 64]
  else if n < 0x10000 then
    [0xE0 + n / 4096, 0x80 + n / 64 % 64, 0x80 + n % 64]
  else
    [0xF0 + n / 0x40000, 0x80 + n / 4096 % 64, 0x80 + n / 64 % 64,
     0x80 + n % 64]

/-- `s.encode("utf-8")` for a Python string. -/
def utf8Chars (s : Chars) : List Nat := s.flatMap (fun c => utf8c c.toNat)

/-! ## SHA-1 (`hashlib.sha1`), from FIPS 180-4 -/

/-- Rotate a 32-bit word left by `n` bits. -/
def rotl32 (n x : Nat) : Nat := ((x <<< n) % 2 ^ 32) ||| (x >>> (32 - n))

/-- Big-endian byte rendering of `n` in `k` bytes. -/
def bytesBE : Nat → Nat → List Nat
  | 0, _ => []
  | k + 1, n => bytesBE k (n / 256) ++ [n % 256]

/-- Split bytes into 32-bit big-endian words (full groups of 4). -/
def toWords32BE : List Nat → List Nat
  | a :: b :: c :: d :: rest =>
      (a * 2 ^ 24 + b * 2 ^ 16 + c * 2 ^ 8 + d) :: toWords32BE rest
  | _ => []

/-- Extend the 16-word schedule by `k` further words. -/
def sha1Extend : Nat → List Nat → List Nat
  | 0, w => w
  | k + 1, w =>
      let n := w.length
      let x := rotl32 1 ((w.getD (n - 3) 0 ^^^ w.getD (n - 8) 0) ^^^
        (w.getD (n - 14) 0 ^^^ w.getD (n - 16) 0))
      sha1Extend k (w ++ [x])

/-- The 80-round compression loop on state `(a, b, c, d, e)`. -/
def sha1Rounds (w : List Nat) (st : Nat × Nat × Nat × Nat × Nat) :
    Nat × Nat × Nat × Nat × Nat :=
  (List.range 80).foldl
    (fun st i =>
      let (a, b, c, d, e) := st
      let f :=
        if i < 20 then (b &&& c) ||| ((b ^^^ 0xFFFFFFFF) &&& d)
        else if i < 40 then (b ^^^ c) ^^^ d
        else if i < 60 then ((b &&& c) ||| (b &&& d)) ||| (c &&& d)
        else (b ^^^ c) ^^^ d
      let k :=
        if i < 20 then 0x5A827999
        else if i < 40 then 0x6ED9EBA1
        else if i < 60 then 0x8F1BBCDC
        else 0xCA62C1D6
      let temp := (rotl32 5 a + f + e + k + w.getD i 0) % 2 ^ 32
      (temp, a, rotl32 30 b, c, d))
    st

/-- Process one 64-byte chunk. -/
def sha1Chunk (h : Nat × Nat × Nat × Nat × Nat) (chunk : List Nat) :
    Nat × Nat × Nat × Nat × Nat :=
  let (h0, h1, h2, h3, h4) := h
  let w := sha1Extend 64 (toWords32BE chunk)
  let (a, b, c, d, e) := sha1Rounds w (h0, h1, h2, h3, h4)
  ((h0 + a) % 2 ^ 32, (h1 + b) % 2 ^ 32, (h2 + c) % 2 ^ 32,
   (h3 + d) % 2 ^ 32, (h4 + e) % 2 ^ 32)

/-- Process the padded message 64 bytes at a time (`fuel` bounds the number
of chunks so the recursion is structural and kernel-reducible). -/
def sha1Chunks : Nat → (Nat × Nat × Nat × Nat × Nat) → List Nat →
    Nat × Nat × Nat × Nat × Nat
  | 0, h, _ => h
  | fuel + 1, h, msg =>
      if msg = [] then h
      else sha1Chunks fuel (sha1Chunk h (msg.take 64)) (msg.drop 64)

/-- `hashlib.sha1(msg).digest()`: pad with `0x80`, zeros and the 64-bit
big-endian bit length, compress, emit the 20-byte digest. -/
def sha1 (msg : List Nat) : List Nat :=
  let l := msg.length
  let zeros := (64 - (l + 9) % 64) % 64
  let padded := msg ++ [0x80] ++ List.replicate zeros 0 ++ bytesBE 8 (8 * l)
  let (h0, h1, h2, h3, h4) :=
    sha1Chunks (padded.length + 1)
      (0x67452301, 0xEFCDAB89, 0x98BADCFE, 0x10325476, 0xC3D2E1F0) padded
  ([h0, h1, h2, h3, h4]).flatMap (bytesBE 4)

/-! ## Base64 (`base64.b64encode` / `base64.b64decode`, RFC 4648)

`b64decode` below accepts exactly the canonical encodings `b64encode`
produces (the only inputs the verified pipelines feed it). -/

/-- The standard base64 alphabet. -/
def B64_ALPHABET : Chars :=
  ("ABCDEFGHIJKLMNOPQRSTUVWXYZabcdefghijklmnopqrstuvwxyz0123456789+/").data

/-- Character for a 6-bit group. -/
def b64char (n : Nat) : Char := B64_ALPHABET.getD n 'A'

/-- `base64.b64encode` over bytes, as a string. -/
def b64encode : List Nat → Chars
  | [] => []
  | [a] => [b64char (a / 4), b64char (a % 4 * 16), '=', '=']
  | [a, b] => [b64char (a / 4), b64char (a % 4 * 16 + b / 16),
      b64char (b % 16 * 4), '=']
  | a :: b :: c :: rest =>
      [b64char (a / 4), b64char (a % 4 * 16 + b / 16),
       b64char (b % 16 * 4 + c / 64), b64char (c % 64)] ++ b64encode rest

/-- Index of a character in the base64 alphabet. -/
def b64index (c : Char) : Option Nat :=
  B64_ALPHABET.findIdx? (fun x => x == c)

/-- `base64.b64decode` on canonical encodings. -/
def b64decode : Chars → Option (List Nat)
  | [] => some []
  | w :: x :: y :: z :: rest =>
      match b64index w, b64index x with
      | some a, some b =>
          if y = '=' ∧ z = '=' ∧ rest = [] then some [a * 4 + b / 16]
          else
            match b64index y with
            | some c =>
                if z = '=' ∧ rest = [] then
                  some [a * 4 + b / 16, b % 16 * 16 + c / 4]
                else
                  match b64index z with
                  | some d =>
                      (b64decode rest).map
                        (fun tl => (a * 4 + b / 16) :: (b % 16 * 16 + c / 4) ::
                          (c % 4 * 64 + d) :: tl)
                  | none => none
            | none => none
      | _, _ => none
  | _ => none

/-! ## Parameter canonicalization and `get_auth_code` (`client/auth.py`)

A Python `dict` of request parameters is modelled as an association list
with pairwise-distinct keys; permutations of the list model different
insertion orders of the same dict content. -/

/-- A request-parameter value: `None`, a string, or an integer. -/
inductive PValue
  | pnone
  | pstr (s : Chars)
  | pint (n : Int)
deriving DecidableEq

/-- Lexicographic comparison of strings by code point — Python's `str`
ordering, used by `sorted(par.keys())`. -/
def charsLeB : Chars → Chars → Bool
  | [], _ => true
  | _ :: _, [] => false
  | a :: s, b :: t =>
      if a.toNat < b.toNat then true
      else if a.toNat = b.toNat then charsLeB s t
      else false

/-- Lexicographic comparison of byte strings — the spec's "byte-wise
ascending order". -/
def natsLeB : List Nat → List Nat → Bool
  | [], _ => true
  | _ :: _, [] => false
  | a :: s, b :: t =>
      if a < b then true
      else if a = b then natsLeB s t
      else false

/-- Python's `sorted` order on strings, as a decidable relation. -/
def charsLe (s t : Chars) : Prop := charsLeB s t = true

instance : DecidableRel charsLe := fun s t =>
  inferInstanceAs (Decidable (charsLeB s t = true))

/-- The spec's byte-wise order on strings: compare UTF-8 encodings. -/
def byteLe (s t : Chars) : Prop := natsLeB (utf8Chars s) (utf8Chars t) = true

instance : DecidableRel byteLe := fun s t =>
  inferInstanceAs (Decidable (natsLeB (utf8Chars s) (utf8Chars t) = true))

/-- `par[key]` for the association-list model (keys looked up by
`get_auth_code` always occur, so the `pnone` default is never reached). -/
def plookup (par : List (Chars × PValue)) (key : Chars) : PValue :=
  match par.find? (fun p => p.1 == key) with
  | some p => p.2
  | none => PValue.pnone

/-- One `key=value` fragment, following the source's three branches:
`value is None` → `key=`; empty string → `key=`; otherwise
`f"{key}={value}"` (`str(int)` for integers). -/
def renderEntry (key : Chars) (value : PValue) : Chars :=
  match value with
  | .pnone => key ++ ['=']
  | .pstr s => if s = [] then key ++ ['='] else key ++ ['='] ++ s
  | .pint n => key ++ ['='] ++ (toString n).data

/-- The canonical-string loop of `AuthHandler.get_auth_code` (auth.py lines
18–31): iterate over `sorted(par.keys())`, prepending `&` whenever `temp`
is non-empty. -/
def canonicalString (par : List (Chars × PValue)) : Chars :=
  (List.insertionSort charsLe (par.map Prod.fst)).foldl
    (fun temp key =>
      let temp2 := if temp ≠ [] then temp ++ ['&'] else temp
      temp2 ++ renderEntry key (plookup par key))
    []

/-- `AuthHandler.get_auth_code` (auth.py lines 16–35):
`base64(sha1((temp + ":" + secret).encode("utf-8")))`. -/
def get_auth_code (par : List (Chars × PValue)) (secret : Chars) : Chars :=
  let text := canonicalString par ++ [':'] ++ secret
  b64encode (sha1 (utf8Chars text))

/-! ### The spec's canonicalization, stated from its words -/

/-- The value text of the spec's `key=value` pair: nothing for null or the
empty string, the digits for an integer. -/
def specValueChars : PValue → Chars
  | .pnone => []
  | .pstr s => s
  | .pint n => (toString n).data

/-- "join pairs with `&`". -/
def joinAmp : List Chars → Chars
  | [] => []
  | [x] => x
  | x :: xs => x ++ ['&'] ++ joinAmp xs

/-- The spec's canonical string: keys in byte-wise ascending order, each
rendered `key=value` (just `key=` for null/empty), joined by `&`. -/
def canonicalSpec (par : List (Chars × PValue)) : Chars :=
  joinAmp ((List.insertionSort byteLe (par.map Prod.fst)).map
    (fun k => k ++ ['='] ++ specValueChars (plookup par k)))

/-! ### Order properties of the key orders -/

/-- Characters with equal code points are equal. -/
theorem char_eq_of_toNat_eq {a b : Char} (h : a.toNat = b.toNat) : a = b := by
  apply Char.ext
  unfold Char.toNat at h
  exact UInt32.toNat.inj h

/-- Every `Char` code point is below `0x110000`. -/
theorem char_toNat_lt (c : Char) : c.toNat < 0x110000 := by
  rcases c.valid with h | ⟨_, h2⟩
  · exact Nat.lt_trans h (by norm_num)
  · exact h2

theorem charsLeB_total (s t : Chars) :
    charsLeB s t = true ∨ charsLeB t s = true := by
  induction s generalizing t with
  | nil => left; rfl
  | cons a s ih =>
    cases t with
    | nil => right; rfl
    | cons b t =>
      unfold charsLeB
      rcases Nat.lt_trichotomy a.toNat b.toNat with h | h | h
      · left; rw [if_pos h]
      · rw [if_neg (by omega), if_pos h, if_neg (by omega), if_pos h.symm]
        exact ih t
      · right; rw [if_pos h]

theorem charsLeB_trans (s t u : Chars) (h1 : charsLeB s t = true)
    (h2 : charsLeB t u = true) : charsLeB s u = true := by
  induction s generalizing t u with
  | nil => rfl
  | cons a s ih =>
    cases t with
    | nil => simp [charsLeB] at h1
    | cons b t =>
      cases u with
      | nil => simp [charsLeB] at h2
      | cons c u =>
        unfold charsLeB at h1 h2 ⊢
        rcases Nat.lt_trichotomy a.toNat b.toNat with hab | hab | hab <;>
          rcases Nat.lt_trichotomy b.toNat c.toNat with hbc | hbc | hbc
        · rw [if_pos (by omega)]
        · rw [if_pos (by omega)]
        · rw [if_neg (by omega), if_neg (by omega)] at h2
          exact absurd h2 (by simp)
        · rw [if_pos (by omega)]
        · rw [if_neg (by omega), if_pos (by omega)]
          rw [if_neg (by omega), if_pos hab] at h1
          rw [if_neg (by omega), if_pos hbc] at h2
          exact ih t u h1 h2
        · rw [if_neg (by omega), if_neg (by omega)] at h2
          exact absurd h2 (by simp)
        · rw [if_neg (by omega), if_neg (by omega)] at h1
          exact absurd h1 (by simp)
        · rw [if_neg (by omega), if_neg (by omega)] at h1
          exact absurd h1 (by simp)
        · rw [if_neg (by omega), if_neg (by omega)] at h1
          exact absurd h1 (by simp)

theorem charsLeB_antisymm (s t : Chars) (h1 : charsLeB s t = true)
    (h2 : charsLeB t s = true) : s = t := by
  induction s generalizing t with
  | nil =>
    cases t with
    | nil => rfl
    | cons b t => simp [charsLeB] at h2
  | cons a s ih =>
    cases t with
    | nil => simp [charsLeB] at h1
    | cons b t =>
      unfold charsLeB at h1 h2
      rcases Nat.lt_trichotomy a.toNat b.toNat with hab | hab | hab
      · rw [if_neg (by omega), if_neg (by omega)] at h2
        exact absurd h2 (by simp)
      · rw [if_neg (by omega), if_pos hab] at h1
        rw [if_neg (by omega), if_pos hab.symm] at h2
        rw [char_eq_of_toNat_eq hab, ih t h1 h2]
      · rw [if_neg (by omega), if_neg (by omega)] at h1
        exact absurd h1 (by simp)

instance : IsTotal Chars charsLe := ⟨charsLeB_total⟩

instance : IsTrans Chars charsLe := ⟨charsLeB_trans⟩

instance : IsAntisymm Chars charsLe := ⟨charsLeB_antisymm⟩

/-! ### UTF-8 preserves lexicographic order

Python's `sorted` compares strings by code point; the spec asks for byte-wise
order on the UTF-8 encodings.  These agree because UTF-8 is order-preserving:
two encodings first differ at a byte that is ordered like the code points. -/

theorem utf8c_ne_nil (n : Nat) : utf8c n ≠ [] := by
  unfold utf8c
  split_ifs <;> simp

/-- Encodings of `m < n` share a (possibly empty) common prefix and then
differ at a byte ordered like the code points. -/
theorem utf8c_firstDiff (m n : Nat) (hn : n < 0x110000) (h : m < n) :
    ∃ p a b s1 s2, utf8c m = p ++ a :: s1 ∧ utf8c n = p ++ b :: s2 ∧ a < b := by
  unfold utf8c
  by_cases hm1 : m < 0x80
  · rw [if_pos hm1]
    by_cases hn1 : n < 0x80
    · exact ⟨[], m, n, [], [], rfl, by rw [if_pos hn1]; rfl, h⟩
    · by_cases hn2 : n < 0x800
      · refine ⟨[], m, 0xC0 + n / 64, [], [0x80 + n % 64], rfl, ?_, by omega⟩
        rw [if_neg hn1, if_pos hn2]; rfl
      · by_cases hn3 : n < 0x10000
        · refine ⟨[], m, 0xE0 + n / 4096, [],
            [0x80 + n / 64 % 64, 0x80 + n % 64], rfl, ?_, by omega⟩
          rw [if_neg hn1, if_neg hn2, if_pos hn3]; rfl
        · refine ⟨[], m, 0xF0 + n / 0x40000, [],
            [0x80 + n / 4096 % 64, 0x80 + n / 64 % 64, 0x80 + n % 64],
            rfl, ?_, by omega⟩
          rw [if_neg hn1, if_neg hn2, if_neg hn3]; rfl
  · by_cases hm2 : m < 0x800
    · rw [if_neg hm1, if_pos hm2]
      by_cases hn2 : n < 0x800
      · by_cases hd : m / 64 < n / 64
        · refine ⟨[], 0xC0 + m / 64, 0xC0 + n / 64, [0x80 + m % 64],
            [0x80 + n % 64], rfl, ?_, by omega⟩
          rw [if_neg (by omega), if_pos hn2]; rfl
        · refine ⟨[0xC0 + m / 64], 0x80 + m % 64, 0x80 + n % 64, [], [],
            rfl, ?_, by omega⟩
          rw [if_neg (by omega), if_pos hn2]
          simp
          omega
      · by_cases hn3 : n < 0x10000
        · refine ⟨[], 0xC0 + m / 64, 0xE0 + n / 4096, [0x80 + m % 64],
            [0x80 + n / 64 % 64, 0x80 + n % 64], rfl, ?_, by omega⟩
          rw [if_neg (by omega), if_neg hn2, if_pos hn3]; rfl
        · refine ⟨[], 0xC0 + m / 64, 0xF0 + n / 0x40000, [0x80 + m % 64],
            [0x80 + n / 4096 % 64, 0x80 + n / 64 % 64, 0x80 + n % 64],
            rfl, ?_, by omega⟩
          rw [if_neg (by omega), if_neg hn2, if_neg hn3]; rfl
    · by_cases hm3 : m < 0x10000
      · rw [if_neg hm1, if_neg hm2, if_pos hm3]
        by_cases hn3 : n < 0x10000
        · by_cases hd1 : m / 4096 < n / 4096
          · refine ⟨[], 0xE0 + m / 4096, 0xE0 + n / 4096,
              [0x80 + m / 64 % 64, 0x80 + m % 64],
              [0x80 + n / 64 % 64, 0x80 + n % 64], rfl, ?_, by omega⟩
            rw [if_neg (by omega), if_neg (by omega), if_pos hn3]; rfl
          · by_cases hd2 : m / 64 % 64 < n / 64 % 64
            · refine ⟨[0xE0 + m / 4096], 0x80 + m / 64 % 64,
                0x80 + n / 64 % 64, [0x80 + m % 64], [0x80 + n % 64],
                rfl, ?_, by omega⟩
              rw [if_neg (by omega), if_neg (by omega), if_pos hn3]
              simp
              omega
            · refine ⟨[0xE0 + m / 4096, 0x80 + m / 64 % 64], 0x80 + m % 64,
                0x80 + n % 64, [], [], rfl, ?_, by omega⟩
              rw [if_neg (by omega), if_neg (by omega), if_pos hn3]
              simp
              omega
        · refine ⟨[], 0xE0 + m / 4096, 0xF0 + n / 0x40000,
            [0x80 + m / 64 % 64, 0x80 + m % 64],
            [0x80 + n / 4096 % 64, 0x80 + n / 64 % 64, 0x80 + n % 64],
            rfl, ?_, by omega⟩
          rw [if_neg (by omega), if_neg (by omega), if_neg hn3]; rfl
      · rw [if_neg hm1, if_neg hm2, if_neg hm3]
        have hn3 : ¬ n < 0x10000 := by omega
        rw [if_neg (by omega), if_neg (by omega), if_neg hn3]
        by_cases hd1 : m / 0x40000 < n / 0x40000
        · exact ⟨[], 0xF0 + m / 0x40000, 0xF0 + n / 0x40000,
            [0x80 + m / 4096 % 64, 0x80 + m / 64 % 64, 0x80 + m % 64],
            [0x80 + n / 4096 % 64, 0x80 + n / 64 % 64, 0x80 + n % 64],
            rfl, rfl, by omega⟩
        · by_cases hd2 : m / 4096 % 64 < n / 4096 % 64
          · refine ⟨[0xF0 + m / 0x40000], 0x80 + m / 4096 % 64,
              0x80 + n / 4096 % 64, [0x80 + m / 64 % 64, 0x80 + m % 64],
              [0x80 + n / 64 % 64, 0x80 + n % 64], rfl, ?_, by omega⟩
            simp
            omega
          · by_cases hd3 : m / 64 % 64 < n / 64 % 64
            · refine ⟨[0xF0 + m / 0x40000, 0x80 + m / 4096 % 64],
                0x80 + m / 64 % 64, 0x80 + n / 64 % 64,
                [0x80 + m % 64], [0x80 + n % 64], rfl, ?_, by omega⟩
              simp
              omega
            · refine ⟨[0xF0 + m / 0x40000, 0x80 + m / 4096 % 64,
                0x80 + m / 64 % 64], 0x80 + m % 64, 0x80 + n % 64, [], [],
                rfl, ?_, by omega⟩
              simp
              omega

theorem natsLeB_firstDiff (p : List Nat) (a b : Nat) (s1 s2 r1 r2 : List Nat)
    (h : a < b) :
    natsLeB ((p ++ a :: s1) ++ r1) ((p ++ b :: s2) ++ r2) = true := by
  induction p with
  | nil =>
    simp only [List.nil_append, List.cons_append]
    unfold natsLeB
    rw [if_pos h]
  | cons x p ih =>
    simp only [List.cons_append]
    unfold natsLeB
    rw [if_neg (lt_irrefl x), if_pos rfl]
    exact ih

theorem natsLeB_firstDiff_rev (p : List Nat) (a b : Nat)
    (s1 s2 r1 r2 : List Nat) (h : a < b) :
    natsLeB ((p ++ b :: s2) ++ r2) ((p ++ a :: s1) ++ r1) = false := by
  induction p with
  | nil =>
    simp only [List.nil_append, List.cons_append]
    unfold natsLeB
    rw [if_neg (by omega), if_neg (by omega)]
  | cons x p ih =>
    simp only [List.cons_append]
    unfold natsLeB
    rw [if_neg (lt_irrefl x), if_pos rfl]
    exact ih

theorem natsLeB_cons_same (c : Nat) (x y : List Nat) :
    natsLeB (c :: x) (c :: y) = natsLeB x y := by
  conv_lhs => unfold natsLeB
  rw [if_neg (lt_irrefl c), if_pos rfl]

theorem charsLeB_cons_same (c : Char) (x y : Chars) :
    charsLeB (c :: x) (c :: y) = charsLeB x y := by
  conv_lhs => unfold charsLeB
  rw [if_neg (lt_irrefl c.toNat), if_pos rfl]

theorem natsLeB_append_left (p x y : List Nat) :
    natsLeB (p ++ x) (p ++ y) = natsLeB x y := by
  induction p with
  | nil => rfl
  | cons c p ih =>
    simp only [List.cons_append]
    rw [natsLeB_cons_same]
    exact ih

theorem utf8Chars_cons (c : Char) (s : Chars) :
    utf8Chars (c :: s) = utf8c c.toNat ++ utf8Chars s := by
  simp [utf8Chars]

/-- Byte-wise comparison of UTF-8 encodings agrees with code-point
comparison of the strings. -/
theorem utf8_order_agree (s t : Chars) :
    natsLeB (utf8Chars s) (utf8Chars t) = charsLeB s t := by
  induction s generalizing t with
  | nil => rfl
  | cons a s ih =>
    cases t with
    | nil =>
      obtain ⟨x, xs, hx⟩ := List.exists_cons_of_ne_nil (utf8c_ne_nil a.toNat)
      rw [utf8Chars_cons, hx]
      rfl
    | cons b t =>
      rw [utf8Chars_cons, utf8Chars_cons]
      rcases Nat.lt_trichotomy a.toNat b.toNat with h | h | h
      · obtain ⟨p, x, y, s1, s2, e1, e2, hxy⟩ :=
          utf8c_firstDiff _ _ (char_toNat_lt b) h
        rw [e1, e2, natsLeB_firstDiff p x y s1 s2 _ _ hxy]
        unfold charsLeB
        rw [if_pos h]
      · have hab : a = b := char_eq_of_toNat_eq h
        subst hab
        rw [natsLeB_append_left, ih t, charsLeB_cons_same]
      · obtain ⟨p, x, y, s1, s2, e1, e2, hxy⟩ :=
          utf8c_firstDiff _ _ (char_toNat_lt a) h
        rw [e1, e2, natsLeB_firstDiff_rev p x y s1 s2 _ _ hxy]
        unfold charsLeB
        rw [if_neg (by omega), if_neg (by omega)]

/-- The spec's byte-wise order and the source's code-point order coincide. -/
theorem byteLe_iff_charsLe (s t : Chars) : byteLe s t ↔ charsLe s t := by
  unfold byteLe charsLe
  rw [utf8_order_agree]

/-! ### Canonical string lemmas -/

theorem orderedInsert_congr (r p : Chars → Chars → Prop)
    [DecidableRel r] [DecidableRel p] (hrp : ∀ a b, r a b ↔ p a b)
    (a : Chars) (l : List Chars) :
    l.orderedInsert r a = l.orderedInsert p a := by
  induction l with
  | nil => rfl
  | cons b l ih =>
    simp only [List.orderedInsert]
    exact if_congr (hrp a b) rfl (by rw [ih])

theorem insertionSort_congr (r p : Chars → Chars → Prop)
    [DecidableRel r] [DecidableRel p] (hrp : ∀ a b, r a b ↔ p a b)
    (l : List Chars) :
    List.insertionSort r l = List.insertionSort p l := by
  induction l with
  | nil => rfl
  | cons a l ih =>
    simp only [List.insertionSort]
    rw [ih, orderedInsert_congr r p hrp]

/-- `renderEntry` always contains the `'='`, so it is never empty. -/
theorem renderEntry_ne_nil (k : Chars) (v : PValue) : renderEntry k v ≠ [] := by
  cases v with
  | pnone => simp [renderEntry]
  | pstr s =>
    by_cases hs : s = [] <;> simp [renderEntry, hs]
  | pint n => simp [renderEntry]

theorem joinAmp_cons (x : Chars) (xs : List Chars) :
    joinAmp (x :: xs) = x ++ (xs.map (fun y => '&' :: y)).flatten := by
  induction xs generalizing x with
  | nil => simp [joinAmp]
  | cons y ys ih =>
    rw [show joinAmp (x :: y :: ys) = x ++ ['&'] ++ joinAmp (y :: ys) from rfl]
    rw [ih y]
    simp

theorem foldl_amp (render : Chars → Chars) (keys : List Chars) (acc : Chars)
    (hacc : acc ≠ []) :
    keys.foldl (fun temp key =>
        (if temp ≠ [] then temp ++ ['&'] else temp) ++ render key) acc =
      acc ++ (keys.map (fun k => '&' :: render k)).flatten := by
  induction keys generalizing acc with
  | nil => simp
  | cons k ks ih =>
    simp only [List.foldl_cons, List.map_cons, List.flatten_cons]
    rw [if_pos hacc, ih _ (by simp)]
    simp

theorem foldl_amp_nil (render : Chars → Chars)
    (hr : ∀ k, render k ≠ []) (keys : List Chars) :
    keys.foldl (fun temp key =>
        (if temp ≠ [] then temp ++ ['&'] else temp) ++ render key) [] =
      joinAmp (keys.map render) := by
  cases keys with
  | nil => rfl
  | cons k ks =>
    simp only [List.foldl_cons, List.map_cons]
    rw [if_neg (by simp), joinAmp_cons, List.nil_append]
    rw [foldl_amp render ks (render k) (hr k), List.map_map]
    rfl

/-- The source's branching render equals the spec's `key= value?` render. -/
theorem renderEntry_eq_spec (k : Chars) (v : PValue) :
    renderEntry k v = k ++ ['='] ++ specValueChars v := by
  cases v with
  | pnone => simp [renderEntry, specValueChars]
  | pstr s => by_cases hs : s = [] <;> simp [renderEntry, specValueChars, hs]
  | pint n => rfl

/-- The source's canonical-string loop computes the spec's canonical string. -/
theorem canonicalString_eq_spec (par : List (Chars × PValue)) :
    canonicalString par = canonicalSpec par := by
  unfold canonicalString canonicalSpec
  rw [insertionSort_congr byteLe charsLe byteLe_iff_charsLe]
  rw [show (fun (temp : Chars) key =>
      (if temp ≠ [] then temp ++ ['&'] else temp) ++
        renderEntry key (plookup par key)) =
    (fun temp key =>
      (if temp ≠ [] then temp ++ ['&'] else temp) ++
        (fun k => renderEntry k (plookup par k)) key) from rfl]
  rw [foldl_amp_nil _ (fun k => renderEntry_ne_nil k (plookup par k))]
  congr 1
  apply List.map_congr_left
  intro k _
  exact renderEntry_eq_spec k (plookup par k)

/-! ### Lookup and permutation lemmas -/

theorem plookup_mem (par : List (Chars × PValue)) (k : Chars) (v : PValue)
    (hnd : (par.map Prod.fst).Nodup) (hm : (k, v) ∈ par) :
    plookup par k = v := by
  induction par with
  | nil => cases hm
  | cons p rest ih =>
    obtain ⟨k1, v1⟩ := p
    rw [List.map_cons, List.nodup_cons] at hnd
    rcases List.mem_cons.mp hm with he | ht
    · obtain ⟨rfl, rfl⟩ := Prod.mk.injEq .. ▸ he
      simp [plookup, List.find?_cons]
    · by_cases hk : k1 = k
      · exfalso
        subst hk
        exact hnd.1 (List.mem_map.mpr ⟨(k1, v), ht, rfl⟩)
      · unfold plookup
        rw [List.find?_cons, show (((k1, v1) : Chars × PValue).1 == k) = false
          from beq_eq_false_iff_ne.mpr hk]
        exact ih hnd.2 ht

theorem plookup_self_mem (par : List (Chars × PValue)) (k : Chars)
    (hk : k ∈ par.map Prod.fst) : (k, plookup par k) ∈ par := by
  induction par with
  | nil => cases hk
  | cons p rest ih =>
    obtain ⟨k1, v1⟩ := p
    by_cases he : k1 = k
    · subst he
      have hv : plookup ((k1, v1) :: rest) k1 = v1 := by
        simp [plookup, List.find?_cons]
      rw [hv]
      exact List.mem_cons_self _ _
    · unfold plookup
      rw [List.find?_cons, show (((k1, v1) : Chars × PValue).1 == k) = false
        from beq_eq_false_iff_ne.mpr he]
      right
      rw [List.map_cons] at hk
      rcases List.mem_cons.mp hk with h | h
      · exact absurd h.symm he
      · exact ih h

theorem plookup_not_mem (par : List (Chars × PValue)) (k : Chars)
    (hk : k ∉ par.map Prod.fst) : plookup par k = PValue.pnone := by
  unfold plookup
  rw [List.find?_eq_none.mpr]
  intro p hp
  simp only [beq_iff_eq]
  intro he
  exact hk (List.mem_map.mpr ⟨p, hp, he⟩)

theorem plookup_perm (par par2 : List (Chars × PValue))
    (hperm : par2.Perm par) (hnd : (par.map Prod.fst).Nodup) (k : Chars) :
    plookup par2 k = plookup par k := by
  have hnd2 : (par2.map Prod.fst).Nodup :=
    ((hperm.map Prod.fst).symm).nodup hnd
  by_cases hk : k ∈ par.map Prod.fst
  · have hmem : (k, plookup par k) ∈ par := plookup_self_mem par k hk
    exact plookup_mem par2 k (plookup par k) hnd2 (hperm.mem_iff.mpr hmem)
  · have hk2 : k ∉ par2.map Prod.fst := by
      intro h
      exact hk (((hperm.map Prod.fst).mem_iff).mp h)
    rw [plookup_not_mem par k hk, plookup_not_mem par2 k hk2]

/-- Sorted key lists of permuted parameter sets coincide. -/
theorem sortKeys_perm (par par2 : List (Chars × PValue))
    (hperm : par2.Perm par) :
    List.insertionSort charsLe (par2.map Prod.fst) =
      List.insertionSort charsLe (par.map Prod.fst) := by
  refine List.eq_of_perm_of_sorted ?_ (List.sorted_insertionSort charsLe _)
    (List.sorted_insertionSort charsLe _)
  exact (List.perm_insertionSort charsLe _).trans
    ((hperm.map Prod.fst).trans (List.perm_insertionSort charsLe _).symm)

/-- C2: `get_auth_code` returns `base64(SHA1(canonical ++ ":" ++ secret))`
with the spec's canonical string (keys byte-wise ascending, `key=` for
null/empty values, `&`-joined), and its value does not depend on the
insertion order of the parameter set. -/
theorem get_auth_code_matches_spec (par : List (Chars × PValue))
    (secret : Chars) (hnd : (par.map Prod.fst).Nodup) :
    get_auth_code par secret =
        b64encode (sha1 (utf8Chars (canonicalSpec par ++ [':'] ++ secret))) ∧
      ∀ par2 : List (Chars × PValue), par2.Perm par →
        get_auth_code par2 secret = get_auth_code par secret := by
  constructor
  · unfold get_auth_code
    rw [canonicalString_eq_spec]
  · intro par2 hperm
    unfold get_auth_code
    have hc : canonicalString par2 = canonicalString par := by
      unfold canonicalString
      rw [sortKeys_perm par par2 hperm]
      apply List.foldl_ext
      intro acc k _
      rw [plookup_perm par par2 hperm hnd k]
    rw [hc]

/-- Witness for `get_auth_code_matches_spec`: the two-key set
`{"b": 5, "a": None}` with secret `"sec"`, checked against its reversed
insertion order. -/
theorem get_auth_code_matches_spec_witness :
    get_auth_code [(['b'], PValue.pint 5), (['a'], PValue.pnone)] (['s', 'e', 'c']) =
        b64encode (sha1 (utf8Chars
          (canonicalSpec [(['b'], PValue.pint 5), (['a'], PValue.pnone)] ++
            [':'] ++ (['s', 'e', 'c'])))) ∧
      get_auth_code [(['a'], PValue.pnone), (['b'], PValue.pint 5)] (['s', 'e', 'c']) =
        get_auth_code [(['b'], PValue.pint 5), (['a'], PValue.pnone)] (['s', 'e', 'c']) := by
  have h := get_auth_code_matches_spec
    [(['b'], PValue.pint 5), (['a'], PValue.pnone)] (['s', 'e', 'c'])
    (by decide)
  exact ⟨h.1, h.2 [(['a'], PValue.pnone), (['b'], PValue.pint 5)] (by decide)⟩

/-- Substituting `None` by `""` at one key leaves every rendered fragment
unchanged. -/
theorem render_plookup_subst (pre post : List (Chars × PValue))
    (k key : Chars) :
    renderEntry key (plookup (pre ++ (k, PValue.pnone) :: post) key) =
      renderEntry key (plookup (pre ++ (k, PValue.pstr []) :: post) key) := by
  induction pre with
  | nil =>
    simp only [List.nil_append]
    unfold plookup
    rw [List.find?_cons, List.find?_cons]
    cases h : (((k, PValue.pnone) : Chars × PValue).1 == key) with
    | true => simp [renderEntry]
    | false => rfl
  | cons p pre ih =>
    simp only [List.cons_append]
    unfold plookup
    rw [List.find?_cons, List.find?_cons]
    cases h : (p.1 == key) with
    | true => rfl
    | false => exact ih

/-- C8: replacing a `None` value by the empty string at any key leaves the
canonical string — and hence the authentication code — unchanged; the two
example sets `{"a": None, "b": 5}` and `{"a": "", "b": 5}` both canonicalize
to `"a=&b=5"`. -/
theorem auth_code_null_empty_equiv (pre post : List (Chars × PValue))
    (k secret : Chars) :
    canonicalString (pre ++ (k, PValue.pnone) :: post) =
        canonicalString (pre ++ (k, PValue.pstr []) :: post) ∧
      get_auth_code (pre ++ (k, PValue.pnone) :: post) secret =
        get_auth_code (pre ++ (k, PValue.pstr []) :: post) secret ∧
      canonicalString [(['a'], PValue.pnone), (['b'], PValue.pint 5)] =
        ("a=&b=5").data ∧
      canonicalString [(['a'], PValue.pstr []), (['b'], PValue.pint 5)] =
        ("a=&b=5").data := by
  have hc : canonicalString (pre ++ (k, PValue.pnone) :: post) =
      canonicalString (pre ++ (k, PValue.pstr []) :: post) := by
    unfold canonicalString
    have hkeys : (pre ++ (k, PValue.pnone) :: post).map Prod.fst =
        (pre ++ (k, PValue.pstr []) :: post).map Prod.fst := by simp
    rw [hkeys]
    apply List.foldl_ext
    intro acc key _
    rw [render_plookup_subst]
  refine ⟨hc, ?_, by decide, by decide⟩
  unfold get_auth_code
  rw [hc]

/-- Witness for `auth_code_null_empty_equiv` at
`{"a": None, "b": 5}` vs `{"a": "", "b": 5}` with secret `"s"`. -/
theorem auth_code_null_empty_equiv_witness :
    canonicalString ([] ++ (['a'], PValue.pnone) :: [(['b'], PValue.pint 5)]) =
        canonicalString
          ([] ++ (['a'], PValue.pstr []) :: [(['b'], PValue.pint 5)]) ∧
      get_auth_code ([] ++ (['a'], PValue.pnone) :: [(['b'], PValue.pint 5)])
          ['s'] =
        get_auth_code ([] ++ (['a'], PValue.pstr []) :: [(['b'], PValue.pint 5)])
          ['s'] ∧
      canonicalString [(['a'], PValue.pnone), (['b'], PValue.pint 5)] =
        ("a=&b=5").data ∧
      canonicalString [(['a'], PValue.pstr []), (['b'], PValue.pint 5)] =
        ("a=&b=5").data :=
  auth_code_null_empty_equiv [] [(['b'], PValue.pint 5)] ['a'] ['s']

/-! ## gzip (`gzip.compress` / `gzip.decompress`)

Modelled from RFC 1952: a 10-byte header, a DEFLATE body, then the CRC-32
of the uncompressed data and its length mod `2^32`, both little-endian.
The DEFLATE body uses stored (uncompressed) blocks — a valid DEFLATE
encoding; zlib's Huffman-coded body differs byte-for-byte, but every
property proved below depends only on the RFC-fixed framing (in particular
the trailer, whose final byte is bits 24–31 of the uncompressed length),
not on the body encoding. -/

/-- Four little-endian bytes of `n` (low 32 bits). -/
def bytes4LE (n : Nat) : List Nat :=
  [n % 256, n / 256 % 256, n / 2 ^ 16 % 256, n / 2 ^ 24 % 256]

/-- Fixed gzip header: magic `1F 8B`, method 8 (DEFLATE), no flags, zero
mtime, no extra flags, unknown OS.  `gzip.decompress` ignores everything
after the first three bytes. -/
def GZIP_HEADER : List Nat := [0x1F, 0x8B, 8, 0, 0, 0, 0, 0, 0, 255]

/-- DEFLATE body made of stored blocks: each block is a final-flag byte, the
16-bit length, its one's complement, then the raw bytes (RFC 1951 §3.2.4).
`fuel` bounds the number of blocks. -/
def deflateStored : Nat → List Nat → List Nat
  | 0, _ => []
  | fuel + 1, x =>
      if x.length ≤ 0xFFFF then
        1 :: x.length % 256 :: x.length / 256 ::
          (255 - x.length % 256) :: (255 - x.length / 256) :: x
      else
        0 :: 255 :: 255 :: 0 :: 0 ::
          (x.take 0xFFFF ++ deflateStored fuel (x.drop 0xFFFF))

/-- Inverse of `deflateStored`: parse stored blocks, returning the payload
and the remaining bytes after the final block. -/
def inflateStored : Nat → List Nat → Option (List Nat × List Nat)
  | 0, _ => none
  | fuel + 1, s =>
      match s with
      | b :: l0 :: l1 :: n0 :: n1 :: rest =>
          let len := l0 + 256 * l1
          if n0 = 255 - l0 ∧ n1 = 255 - l1 ∧ len ≤ rest.length then
            if b = 1 then some (rest.take len, rest.drop len)
            else if b = 0 then
              (inflateStored fuel (rest.drop len)).map
                (fun p => (rest.take len ++ p.1, p.2))
            else none
          else none
      | _ => none

/-- `gzip.compress` (mtime fixed to zero; the field is ignored on decode). -/
def gzipCompress (x : List Nat) : List Nat :=
  GZIP_HEADER ++ deflateStored (x.length + 1) x ++
    bytes4LE (crc32 x) ++ bytes4LE (x.length % 2 ^ 32)

/-- `gzip.decompress`: check the header, inflate, then demand exactly the
8-byte CRC-32/ISIZE trailer. -/
def gzipDecompress (s : List Nat) : Option (List Nat) :=
  if s.take 10 = GZIP_HEADER then
    match inflateStored s.length (s.drop 10) with
    | some (payload, rest) =>
        if rest = bytes4LE (crc32 payload) ++
            bytes4LE (payload.length % 2 ^ 32) then
          some payload
        else none
    | none => none
  else none

/-! ## The battle-result codec (`cat_game5` / `mouse_game5`)

py3rijndael's `RijndaelCbc` (third-party, not in the repository) is embedded
with the Rijndael-256 block permutation abstracted into an explicit
parameter `E` (keyed by `BATTLE_KEY`), constrained to be a
length-preserving permutation of 32-byte blocks; its CBC chaining and PKCS#7
padding are modelled concretely.  `RijndaelCbc.encrypt` pads then chains;
`RijndaelCbc.decrypt` chains then unpads — the repository's own
`get_asset_bundle` (utils/crypto.py) feeds `cipher.decrypt` output straight
into `gzip.decompress`, which only works because `decrypt` already strips
the PKCS#7 padding. -/

/-- `BATTLE_KEY` (battle_crypto.py lines 11–15); it keys the abstracted
block permutation and is recorded here for fidelity. -/
def BATTLE_KEY : List Nat :=
  [0x6F, 0x7E, 0x60, 0x49, 0x70, 0x74, 0x69, 0x7E, 0x75, 0x47, 0x4C, 0x45,
   0x62, 0x7C, 0x34, 0x34, 0x77, 0x65, 0x51, 0x35, 0x63, 0x4D, 0x6C, 0x50,
   0x6E, 0x5D, 0x47, 0x71, 0x4B, 0x40, 0x35, 0x4E]

/-- `BATTLE_IV` (battle_crypto.py lines 17–21). -/
def BATTLE_IV : List Nat :=
  [0x7B, 0x7C, 0x79, 0x7C, 0x61, 0x7B, 0x50, 0x7B, 0x4F, 0x51, 0x79, 0x5A,
   0x5E, 0x6B, 0x79, 0x7A, 0x40, 0x5A, 0x71, 0x6C, 0x62, 0x3B, 0x63, 0x3E,
   0x7E, 0x42, 0x4B, 0x71, 0x5B, 0x7D, 0x3B, 0x6F]

/-- Byte-wise xor of two equal-length blocks. -/
def zipXor (a b : List Nat) : List Nat := List.zipWith (fun x y => x ^^^ y) a b

/-- PKCS#7 padding for the 32-byte block size: append `p` copies of `p`
where `p = 32 - len % 32 ∈ 1..32` (py3rijndael `Pkcs7Padding.encode`). -/
def pkcs7Pad (data : List Nat) : List Nat :=
  let p := 32 - data.length % 32
  data ++ List.replicate p p

/-- PKCS#7 unpadding as applied by py3rijndael inside `decrypt`: drop as
many trailing bytes as the final byte indicates.  Every theorem below
applies it only to buffers carrying valid PKCS#7 padding (final byte in
`1..=32`), where this behaviour is forced by the PKCS#7 standard. -/
def pkcs7Unpad (data : List Nat) : List Nat :=
  data.take (data.length - data.getLastD 0)

/-- CBC encryption chaining (py3rijndael `RijndaelCbc.encrypt` after
padding): xor each 32-byte block with the previous ciphertext block (IV
first), then apply the block permutation.  `fuel` bounds the number of
blocks, keeping the recursion structural. -/
def cbcEncryptGo (E : List Nat → List Nat) : Nat → List Nat → List Nat →
    List Nat
  | 0, _, _ => []
  | fuel + 1, iv, data =>
      if data = [] then []
      else
        let block := E (zipXor (data.take 32) iv)
        block ++ cbcEncryptGo E fuel block (data.drop 32)

/-- CBC decryption chaining (py3rijndael `RijndaelCbc.decrypt` before
unpadding). -/
def cbcDecryptGo (D : List Nat → List Nat) : Nat → List Nat → List Nat →
    List Nat
  | 0, _, _ => []
  | fuel + 1, iv, data =>
      if data = [] then []
      else
        zipXor (D (data.take 32)) iv ++
          cbcDecryptGo D fuel (data.take 32) (data.drop 32)

/-- `cat_game5` (battle_crypto.py lines 26–45): AES-256-CBC encrypt with
PKCS#7 padding, then base64. -/
def cat_game5 (E : List Nat → List Nat) (data : List Nat) : Chars :=
  b64encode (cbcEncryptGo E (data.length + 1) BATTLE_IV (pkcs7Pad data))

/-- `mouse_game5` (battle_crypto.py lines 48–76): base64-decode, CBC
decrypt (the library unpads), apply the manual `stripPad` step, then
gzip-decompress.  A ciphertext that is not whole 32-byte blocks fails in
the library (`none`). -/
def mouse_game5 (D : List Nat → List Nat) (encrypted_b64 : Chars) :
    Option (List Nat) :=
  (b64decode encrypted_b64).bind fun data =>
    if data.length % 32 = 0 then
      gzipDecompress
        (stripPad (pkcs7Unpad (cbcDecryptGo D (data.length + 1) BATTLE_IV data)))
    else none

/-! ## msgpack (`msgpack.packb` / `msgpack.unpackb`)

The msgpack object universe used by battle payloads: nil, booleans,
integers, strings, arrays and maps.  Strings are carried as their UTF-8
bytes (Python `str` values correspond bijectively to valid encodings, and
`packb` writes exactly those bytes).  `packb` picks the smallest format for
each value, as msgpack-python does.  Arrays and maps are mutual inductives
so that recursion and induction stay structural. -/

mutual

inductive MsgObj where
  | nil
  | boolean (b : Bool)
  | int (n : Int)
  | str (s : List Nat)
  | arr (xs : MsgList)
  | map (xs : MsgPairs)

inductive MsgList where
  | mnil
  | mcons (hd : MsgObj) (tl : MsgList)

inductive MsgPairs where
  | pnil
  | pcons (k v : MsgObj) (tl : MsgPairs)

end

/-- Number of elements of a `MsgList`. -/
def msgListLength : MsgList → Nat
  | .mnil => 0
  | .mcons _ tl => msgListLength tl + 1

/-- Number of pairs of a `MsgPairs`. -/
def msgPairsLength : MsgPairs → Nat
  | .pnil => 0
  | .pcons _ _ tl => msgPairsLength tl + 1

/-- Integer encoding: non-negative values in the `uint` ladder, negative
values in negative fixint / `int8..int64` two's complement. -/
def packInt (n : Int) : List Nat :=
  if 0 ≤ n then
    if n < 128 then [n.toNat]
    else if n < 256 then [0xCC, n.toNat]
    else if n < 65536 then 0xCD :: bytesBE 2 n.toNat
    else if n < 2 ^ 32 then 0xCE :: bytesBE 4 n.toNat
    else 0xCF :: bytesBE 8 n.toNat
  else
    if -32 ≤ n then [(n + 256).toNat]
    else if -128 ≤ n then [0xD0, (n + 256).toNat]
    else if -32768 ≤ n then 0xD1 :: bytesBE 2 (n + 2 ^ 16).toNat
    else if -(2 ^ 31) ≤ n then 0xD2 :: bytesBE 4 (n + 2 ^ 32).toNat
    else 0xD3 :: bytesBE 8 (n + 2 ^ 64).toNat

/-- String header for a byte length. -/
def packStrHeader (l : Nat) : List Nat :=
  if l < 32 then [0xA0 + l]
  else if l < 256 then [0xD9, l]
  else if l < 65536 then 0xDA :: bytesBE 2 l
  else 0xDB :: bytesBE 4 l

/-- Array header. -/
def packArrHeader (l : Nat) : List Nat :=
  if l < 16 then [0x90 + l]
  else if l < 65536 then 0xDC :: bytesBE 2 l
  else 0xDD :: bytesBE 4 l

/-- Map header. -/
def packMapHeader (l : Nat) : List Nat :=
  if l < 16 then [0x80 + l]
  else if l < 65536 then 0xDE :: bytesBE 2 l
  else 0xDF :: bytesBE 4 l

mutual

def packb : MsgObj → List Nat
  | .nil => [0xC0]
  | .boolean false => [0xC2]
  | .boolean true => [0xC3]
  | .int n => packInt n
  | .str s => packStrHeader s.length ++ s
  | .arr xs => packArrHeader (msgListLength xs) ++ packList xs
  | .map xs => packMapHeader (msgPairsLength xs) ++ packPairs xs

def packList : MsgList → List Nat
  | .mnil => []
  | .mcons x tl => packb x ++ packList tl

def packPairs : MsgPairs → List Nat
  | .pnil => []
  | .pcons k v tl => packb k ++ packb v ++ packPairs tl

end

mutual

/-- `packb`'s input validity: ints fit 64 bits (signed or unsigned),
strings are bytes shorter than `2^32`, containers shorter than `2^32`. -/
def validObj : MsgObj → Bool
  | .nil => true
  | .boolean _ => true
  | .int n => decide (-(2 ^ 63) ≤ n) && decide (n < 2 ^ 64)
  | .str s => decide (s.length < 2 ^ 32) && s.all (fun b => decide (b < 256))
  | .arr xs => decide (msgListLength xs < 2 ^ 32) && validList xs
  | .map xs => decide (msgPairsLength xs < 2 ^ 32) && validPairs xs

def validList : MsgList → Bool
  | .mnil => true
  | .mcons x tl => validObj x && validList tl

def validPairs : MsgPairs → Bool
  | .pnil => true
  | .pcons k v tl => validObj k && validObj v && validPairs tl

end

/-- Read `k` big-endian bytes as a number. -/
def readBE (k : Nat) (s : List Nat) : Option (Nat × List Nat) :=
  if k ≤ s.length then
    some ((s.take k).foldl (fun acc b => acc * 256 + b) 0, s.drop k)
  else none

/-- Read a string body of `l` bytes. -/
def readStr (l : Nat) (s : List Nat) : Option (MsgObj × List Nat) :=
  if l ≤ s.length then some (.str (s.take l), s.drop l) else none

/-- Signed reinterpretation of a `k`-byte big-endian value. -/
def sintOf (w : Nat) (v : Nat) : Int :=
  if v < 2 ^ (w - 1) then (v : Int) else (v : Int) - 2 ^ w

mutual

/-- Recursive-descent msgpack parser (`msgpack.unpackb`), fuel-indexed so
the recursion is structural; formats not produced by battle payloads
(bin, ext, float) are outside the modelled universe and rejected. -/
def parseObj : Nat → List Nat → Option (MsgObj × List Nat)
  | 0, _ => none
  | _ + 1, [] => none
  | fuel + 1, b :: rest =>
      if b < 0x80 then some (.int b, rest)
      else if b < 0x90 then
        (parsePairs fuel (b - 0x80) rest).map (fun p => (.map p.1, p.2))
      else if b < 0xA0 then
        (parseList fuel (b - 0x90) rest).map (fun p => (.arr p.1, p.2))
      else if b < 0xC0 then readStr (b - 0xA0) rest
      else if b = 0xC0 then some (.nil, rest)
      else if b = 0xC2 then some (.boolean false, rest)
      else if b = 0xC3 then some (.boolean true, rest)
      else if b = 0xCC then
        match rest with
        | v :: r => some (.int v, r)
        | [] => none
      else if b = 0xCD then
        (readBE 2 rest).map (fun p => (.int p.1, p.2))
      else if b = 0xCE then
        (readBE 4 rest).map (fun p => (.int p.1, p.2))
      else if b = 0xCF then
        (readBE 8 rest).map (fun p => (.int p.1, p.2))
      else if b = 0xD0 then
        match rest with
        | v :: r => some (.int (sintOf 8 v), r)
        | [] => none
      else if b = 0xD1 then
        (readBE 2 rest).map (fun p => (.int (sintOf 16 p.1), p.2))
      else if b = 0xD2 then
        (readBE 4 rest).map (fun p => (.int (sintOf 32 p.1), p.2))
      else if b = 0xD3 then
        (readBE 8 rest).map (fun p => (.int (sintOf 64 p.1), p.2))
      else if b = 0xD9 then
        match rest with
        | l :: r => readStr l r
        | [] => none
      else if b = 0xDA then (readBE 2 rest).bind (fun p => readStr p.1 p.2)
      else if b = 0xDB then (readBE 4 rest).bind (fun p => readStr p.1 p.2)
      else if b = 0xDC then
        (readBE 2 rest).bind (fun p =>
          (parseList fuel p.1 p.2).map (fun q => (.arr q.1, q.2)))
      else if b = 0xDD then
        (readBE 4 rest).bind (fun p =>
          (parseList fuel p.1 p.2).map (fun q => (.arr q.1, q.2)))
      else if b = 0xDE then
        (readBE 2 rest).bind (fun p =>
          (parsePairs fuel p.1 p.2).map (fun q => (.map q.1, q.2)))
      else if b = 0xDF then
        (readBE 4 rest).bind (fun p =>
          (parsePairs fuel p.1 p.2).map (fun q => (.map q.1, q.2)))
      else if 0xE0 ≤ b ∧ b ≤ 0xFF then some (.int ((b : Int) - 256), rest)
      else none

def parseList : Nat → Nat → List Nat → Option (MsgList × List Nat)
  | 0, _, _ => none
  | _ + 1, 0, s => some (.mnil, s)
  | fuel + 1, n + 1, s =>
      (parseObj fuel s).bind (fun p =>
        (parseList fuel n p.2).map (fun q => (.mcons p.1 q.1, q.2)))

def parsePairs : Nat → Nat → List Nat → Option (MsgPairs × List Nat)
  | 0, _, _ => none
  | _ + 1, 0, s => some (.pnil, s)
  | fuel + 1, n + 1, s =>
      (parseObj fuel s).bind (fun p =>
        (parseObj fuel p.2).bind (fun q =>
          (parsePairs fuel n q.2).map (fun r => (.pcons p.1 q.1 r.1, r.2))))

end

/-- `msgpack.unpackb`: parse one object and demand the input is consumed. -/
def unpackb (s : List Nat) : Option MsgObj :=
  match parseObj (2 * s.length + 2) s with
  | some (v, []) => some v
  | _ => none

/-! ## Sealing and unsealing battle results -/

/-- The serialization side of `_create_battle_result` (battle.py lines
297–302): msgpack, gzip, `cat_game5`. -/
def sealResult (E : List Nat → List Nat) (payload : MsgObj) : Chars :=
  cat_game5 E (gzipCompress (packb payload))

/-- The decode pipeline of the round-trip claim: `mouse_game5` then
msgpack deserialization. -/
def unsealResult (D : List Nat → List Nat) (s : Chars) : Option MsgObj :=
  (mouse_game5 D s).bind unpackb

/-- Well-formedness of the abstract 32-byte block permutation. -/
def BlockCipher32 (E : List Nat → List Nat) : Prop :=
  ∀ b, b.length = 32 → IsBytes b → (E b).length = 32 ∧ IsBytes (E b)

/-- `D` inverts `E` on 32-byte blocks. -/
def Inverts32 (D E : List Nat → List Nat) : Prop :=
  ∀ b, b.length = 32 → IsBytes b → D (E b) = b

/-! ### Base64 round trip -/

theorem b64index_b64char : ∀ v < 64, b64index (b64char v) = some v := by decide

theorem b64char_ne_pad : ∀ v < 64, b64char v ≠ '=' := by decide

theorem b64decode_encode (x : List Nat) (hx : IsBytes x) :
    b64decode (b64encode x) = some x := by
  induction x using b64encode.induct with
  | case1 => rfl
  | case2 a =>
    have ha : a < 256 := hx a (by simp)
    simp only [b64encode, b64decode]
    rw [b64index_b64char _ (by omega), b64index_b64char _ (by omega)]
    simp
    omega
  | case3 a b =>
    have ha : a < 256 := hx a (by simp)
    have hb : b < 256 := hx b (by simp)
    have hy : b64char (b % 16 * 4) ≠ '=' := b64char_ne_pad _ (by omega)
    simp only [b64encode, b64decode]
    rw [b64index_b64char _ (by omega), b64index_b64char _ (by omega)]
    simp [hy, b64index_b64char _ (by omega : b % 16 * 4 < 64)]
    constructor
    · omega
    · omega
  | case4 a b c rest ih =>
    have ha : a < 256 := hx a (by simp)
    have hb : b < 256 := hx b (by simp)
    have hc : c < 256 := hx c (by simp)
    have hrest : IsBytes rest := fun y hy => hx y (by simp [hy])
    have hy : b64char (b % 16 * 4 + c / 64) ≠ '=' :=
      b64char_ne_pad _ (by omega)
    have hz : b64char (c % 64) ≠ '=' := b64char_ne_pad _ (by omega)
    simp only [b64encode, List.cons_append, List.nil_append, b64decode]
    rw [b64index_b64char _ (by omega), b64index_b64char _ (by omega)]
    simp [hy, hz, b64index_b64char _ (by omega : b % 16 * 4 + c / 64 < 64),
      b64index_b64char _ (by omega : c % 64 < 64), ih hrest]
    refine ⟨by omega, by omega, by omega⟩

/-! ### CBC and PKCS#7 round trips -/

theorem zipXor_cancel (a iv : List Nat) (h : a.length = iv.length) :
    zipXor (zipXor a iv) iv = a := by
  induction a generalizing iv with
  | nil => rfl
  | cons x xs ih =>
    cases iv with
    | nil => cases h
    | cons y ys =>
      simp only [zipXor, List.zipWith_cons_cons]
      rw [show (x ^^^ y) ^^^ y = x from by
        rw [Nat.xor_assoc, Nat.xor_self, Nat.xor_zero]]
      have := ih ys (by simpa using h)
      simp only [zipXor] at this
      rw [this]

theorem zipXor_length (a b : List Nat) :
    (zipXor a b).length = min a.length b.length := by
  simp [zipXor]

theorem zipXor_isBytes (a b : List Nat) (ha : IsBytes a) (hb : IsBytes b) :
    IsBytes (zipXor a b) := by
  induction a generalizing b with
  | nil => intro x hx; cases hx
  | cons x xs ih =>
    cases b with
    | nil => intro y hy; cases hy
    | cons y ys =>
      intro z hz
      simp only [zipXor, List.zipWith_cons_cons, List.mem_cons] at hz
      rcases hz with rfl | hz
      · have hx : x < 2 ^ 8 := ha x (by simp)
        have hy : y < 2 ^ 8 := hb y (by simp)
        exact Nat.xor_lt_two_pow hx hy
      · exact ih ys (fun u hu => ha u (by simp [hu]))
          (fun u hu => hb u (by simp [hu])) z hz

theorem pkcs7Pad_length (x : List Nat) :
    (pkcs7Pad x).length = x.length + (32 - x.length % 32) := by
  simp [pkcs7Pad]

theorem pkcs7Pad_mult32 (x : List Nat) : (pkcs7Pad x).length % 32 = 0 := by
  rw [pkcs7Pad_length]
  omega

theorem pkcs7Pad_isBytes (x : List Nat) (hx : IsBytes x) :
    IsBytes (pkcs7Pad x) := by
  intro y hy
  simp only [pkcs7Pad, List.mem_append] at hy
  rcases hy with hy | hy
  · exact hx y hy
  · have := List.eq_of_mem_replicate hy
    omega

theorem getLastD_append_replicate (x : List Nat) (p : Nat) (hp : 0 < p) :
    (x ++ List.replicate p p).getLastD 0 = p := by
  have hne : List.replicate p p ≠ [] := by
    simp [List.replicate_eq_nil_iff]
    omega
  have h1 : (x ++ List.replicate p p).getLast? = (List.replicate p p).getLast? :=
    List.getLast?_append_of_ne_nil x hne
  have h2 : (List.replicate p p).getLast? = some p := by
    obtain ⟨k, rfl⟩ : ∃ k, p = k + 1 := ⟨p - 1, by omega⟩
    rw [List.replicate_succ']
    simp
  rw [List.getLastD_eq_getLast?, h1, h2]
  rfl

theorem pkcs7Unpad_pad (x : List Nat) : pkcs7Unpad (pkcs7Pad x) = x := by
  unfold pkcs7Unpad pkcs7Pad
  have hp : 0 < 32 - x.length % 32 := by omega
  rw [getLastD_append_replicate x _ hp]
  simp only [List.length_append, List.length_replicate]
  rw [show x.length + (32 - x.length % 32) - (32 - x.length % 32) = x.length
    from by omega]
  rw [List.take_left]

theorem cbcEncryptGo_spec (E : List Nat → List Nat) (hE : BlockCipher32 E) :
    ∀ fuel data iv, data.length % 32 = 0 → data.length ≤ 32 * fuel →
      IsBytes data → iv.length = 32 → IsBytes iv →
      (cbcEncryptGo E fuel iv data).length = data.length ∧
        IsBytes (cbcEncryptGo E fuel iv data) := by
  intro fuel
  induction fuel with
  | zero =>
    intro data iv hm hf _ _ _
    have hdn : data = [] := List.eq_nil_of_length_eq_zero (by omega)
    subst hdn
    exact ⟨by simp [cbcEncryptGo], by intro x hx; simp [cbcEncryptGo] at hx⟩
  | succ f ih =>
    intro data iv hm hf hd hiv hivb
    by_cases hnil : data = []
    · subst hnil
      exact ⟨by simp [cbcEncryptGo], by intro x hx; simp [cbcEncryptGo] at hx⟩
    · have hlen : 32 ≤ data.length := by
        rcases Nat.eq_zero_or_pos data.length with h0 | h0
        · exact absurd (List.eq_nil_of_length_eq_zero h0) hnil
        · omega
      have htake : (data.take 32).length = 32 := by
        rw [List.length_take]; omega
      have htakeb : IsBytes (data.take 32) := fun y hy =>
        hd y (List.mem_of_mem_take hy)
      have hxorlen : (zipXor (data.take 32) iv).length = 32 := by
        rw [zipXor_length, htake, hiv]
        exact Nat.min_self 32
      have hxorb : IsBytes (zipXor (data.take 32) iv) :=
        zipXor_isBytes _ _ htakeb hivb
      obtain ⟨hblen, hbbytes⟩ := hE _ hxorlen hxorb
      have hrec := ih (data.drop 32) (E (zipXor (data.take 32) iv))
        (by rw [List.length_drop]; omega)
        (by rw [List.length_drop]; omega)
        (fun y hy => hd y (List.mem_of_mem_drop hy)) hblen hbbytes
      constructor
      · simp only [cbcEncryptGo, if_neg hnil]
        rw [List.length_append, hblen, hrec.1, List.length_drop]
        omega
      · simp only [cbcEncryptGo, if_neg hnil]
        intro y hy
        rcases List.mem_append.mp hy with hy | hy
        · exact hbbytes y hy
        · exact hrec.2 y hy

theorem cbcDecrypt_encrypt (E D : List Nat → List Nat)
    (hE : BlockCipher32 E) (hD : Inverts32 D E) :
    ∀ fuel fuel2 data iv, data.length % 32 = 0 → data.length ≤ 32 * fuel →
      data.length ≤ 32 * fuel2 → IsBytes data → iv.length = 32 →
      IsBytes iv →
      cbcDecryptGo D fuel2 iv (cbcEncryptGo E fuel iv data) = data := by
  intro fuel
  induction fuel with
  | zero =>
    intro fuel2 data iv hm hf _ _ _ _
    have : data = [] := by
      have : data.length = 0 := by omega
      exact List.eq_nil_of_length_eq_zero this
    subst this
    cases fuel2 <;> simp [cbcEncryptGo, cbcDecryptGo]
  | succ f ih =>
    intro fuel2 data iv hm hf hf2 hd hiv hivb
    by_cases hnil : data = []
    · subst hnil
      cases fuel2 <;> simp [cbcEncryptGo, cbcDecryptGo]
    · have hlen : 32 ≤ data.length := by
        rcases Nat.eq_zero_or_pos data.length with h0 | h0
        · exact absurd (List.eq_nil_of_length_eq_zero h0) hnil
        · omega
      obtain ⟨f2, rfl⟩ : ∃ g, fuel2 = g + 1 := by
        cases fuel2 with
        | zero => omega
        | succ g => exact ⟨g, rfl⟩
      have htake : (data.take 32).length = 32 := by
        rw [List.length_take]; omega
      have htakeb : IsBytes (data.take 32) := fun y hy =>
        hd y (List.mem_of_mem_take hy)
      have hxorlen : (zipXor (data.take 32) iv).length = 32 := by
        rw [zipXor_length, htake, hiv]
        exact Nat.min_self 32
      have hxorb : IsBytes (zipXor (data.take 32) iv) :=
        zipXor_isBytes _ _ htakeb hivb
      obtain ⟨hblen, hbbytes⟩ := hE _ hxorlen hxorb
      set block := E (zipXor (data.take 32) iv) with hblock
      have hdroplen : (data.drop 32).length % 32 = 0 := by
        rw [List.length_drop]; omega
      have hdropb : IsBytes (data.drop 32) := fun y hy =>
        hd y (List.mem_of_mem_drop hy)
      have hrecspec := cbcEncryptGo_spec E hE f (data.drop 32) block
        hdroplen (by rw [List.length_drop]; omega) hdropb hblen hbbytes
      simp only [cbcEncryptGo, if_neg hnil]
      rw [← hblock]
      have henc_ne : block ++ cbcEncryptGo E f block (data.drop 32) ≠ [] := by
        intro hcon
        have := congrArg List.length hcon
        simp [hblen] at this
      simp only [cbcDecryptGo, if_neg henc_ne]
      have htk : (block ++ cbcEncryptGo E f block (data.drop 32)).take 32 =
          block := by
        rw [← hblen, List.take_left]
      have hdr : (block ++ cbcEncryptGo E f block (data.drop 32)).drop 32 =
          cbcEncryptGo E f block (data.drop 32) := by
        rw [← hblen, List.drop_left]
      rw [htk, hdr, hblock, hD _ hxorlen hxorb,
        zipXor_cancel _ _ (by rw [htake, hiv])]
      rw [← hblock]
      rw [ih f2 (data.drop 32) block hdroplen
        (by rw [List.length_drop]; omega)
        (by rw [List.length_drop]; omega) hdropb hblen hbbytes]
      exact List.take_append_drop 32 data

theorem BATTLE_IV_length : BATTLE_IV.length = 32 := by decide

theorem BATTLE_IV_isBytes : IsBytes BATTLE_IV := by decide

/-- Decoding an encoded buffer recovers it up to the manual strip and the
gzip decompression: the base64, CBC and library-padding layers invert. -/
theorem mouse_cat (E D : List Nat → List Nat) (hE : BlockCipher32 E)
    (hD : Inverts32 D E) (data : List Nat) (hdata : IsBytes data) :
    mouse_game5 D (cat_game5 E data) = gzipDecompress (stripPad data) := by
  unfold cat_game5 mouse_game5
  have hpadb : IsBytes (pkcs7Pad data) := pkcs7Pad_isBytes data hdata
  have hpadm : (pkcs7Pad data).length % 32 = 0 := pkcs7Pad_mult32 data
  have hpadf : (pkcs7Pad data).length ≤ 32 * (data.length + 1) := by
    rw [pkcs7Pad_length]
    omega
  obtain ⟨hctlen, hctb⟩ := cbcEncryptGo_spec E hE (data.length + 1)
    (pkcs7Pad data) BATTLE_IV hpadm hpadf hpadb BATTLE_IV_length
    BATTLE_IV_isBytes
  rw [b64decode_encode _ hctb]
  simp only [Option.some_bind]
  rw [if_pos (by rw [hctlen]; exact hpadm)]
  rw [hctlen]
  rw [cbcDecrypt_encrypt E D hE hD (data.length + 1) ((pkcs7Pad data).length + 1)
    (pkcs7Pad data) BATTLE_IV hpadm hpadf (by omega) hpadb BATTLE_IV_length
    BATTLE_IV_isBytes]
  rw [pkcs7Unpad_pad]

/-! ### The trailing byte of a gzip stream -/

theorem stripPad_skip (d : List Nat) (p : Nat) (h : d.getLast? = some p)
    (hp : p = 0 ∨ 32 < p) : stripPad d = d := by
  unfold stripPad
  rw [h]
  exact if_neg (by omega)

theorem stripPad_strip (d : List Nat) (p : Nat) (h : d.getLast? = some p)
    (h1 : 0 < p) (h2 : p ≤ 32) :
    stripPad d = d.take (d.length - p) := by
  unfold stripPad
  rw [h]
  exact if_pos ⟨h1, h2⟩

theorem bytes4LE_getLast (n : Nat) :
    (bytes4LE n).getLast? = some (n / 2 ^ 24 % 256) := by
  rfl

theorem gzipCompress_getLast (x : List Nat) :
    (gzipCompress x).getLast? = some (x.length % 2 ^ 32 / 2 ^ 24) := by
  unfold gzipCompress
  rw [List.append_assoc, List.append_assoc]
  rw [List.getLast?_append_of_ne_nil _ (by
    intro hcon
    have := congrArg List.length hcon
    simp [bytes4LE] at this)]
  rw [List.getLast?_append_of_ne_nil _ (by
    intro hcon
    have := congrArg List.length hcon
    simp [bytes4LE] at this)]
  rw [List.getLast?_append_of_ne_nil _ (by
    intro hcon
    have := congrArg List.length hcon
    simp [bytes4LE] at this)]
  rw [bytes4LE_getLast]
  congr 1
  have : x.length % 2 ^ 32 < 2 ^ 32 := Nat.mod_lt _ (by norm_num)
  omega

/-! ### gzip round trip -/

theorem inflate_deflate (fuel : Nat) :
    ∀ x rest f2, x.length + 1 ≤ fuel → x.length + 1 ≤ f2 →
      inflateStored f2 (deflateStored fuel x ++ rest) = some (x, rest) := by
  induction fuel with
  | zero => intro x rest f2 h1 _; omega
  | succ g ih =>
    intro x rest f2 h1 h2
    obtain ⟨f2g, rfl⟩ : ∃ k, f2 = k + 1 := ⟨f2 - 1, by omega⟩
    by_cases hs : x.length ≤ 0xFFFF
    · simp only [deflateStored, if_pos hs, List.cons_append]
      simp only [inflateStored]
      have hlen : x.length % 256 + 256 * (x.length / 256) = x.length := by
        omega
      rw [hlen]
      rw [if_pos ⟨trivial, trivial, by rw [List.length_append]; omega⟩]
      rw [if_pos trivial]
      rw [List.take_left, List.drop_left]
    · simp only [deflateStored, if_neg hs, List.cons_append]
      simp only [inflateStored]
      have h255 : (255 : Nat) + 256 * 255 = 65535 := by norm_num
      rw [h255]
      rw [if_pos ⟨trivial, trivial, by
        simp only [List.length_append, List.length_take]
        omega⟩]
      rw [if_neg (by omega : ¬ (0 = 1))]
      rw [if_pos trivial]
      rw [List.append_assoc]
      rw [List.take_left' (by rw [List.length_take]; omega),
        List.drop_left' (by rw [List.length_take]; omega)]
      rw [ih (x.drop 0xFFFF) rest f2g
        (by rw [List.length_drop]; omega)
        (by rw [List.length_drop]; omega)]
      simp [List.take_append_drop]

theorem deflate_length_ge (fuel : Nat) :
    ∀ x, x.length + 1 ≤ fuel →
      x.length ≤ (deflateStored fuel x).length := by
  induction fuel with
  | zero => intro x h; omega
  | succ g ih =>
    intro x h
    by_cases hs : x.length ≤ 0xFFFF
    · simp only [deflateStored, if_pos hs, List.length_cons]
      omega
    · simp only [deflateStored, if_neg hs]
      have := ih (x.drop 0xFFFF) (by rw [List.length_drop]; omega)
      simp only [List.length_cons, List.length_append, List.length_take]
      rw [List.length_drop] at this
      omega

theorem deflate_isBytes (fuel : Nat) :
    ∀ x, IsBytes x → IsBytes (deflateStored fuel x) := by
  induction fuel with
  | zero => intro x _ y hy; simp [deflateStored] at hy
  | succ g ih =>
    intro x hx y hy
    by_cases hs : x.length ≤ 0xFFFF
    · simp only [deflateStored, if_pos hs] at hy
      simp only [List.mem_cons] at hy
      rcases hy with rfl | rfl | rfl | rfl | rfl | hy
      · omega
      · omega
      · omega
      · omega
      · omega
      · exact hx y hy
    · simp only [deflateStored, if_neg hs] at hy
      simp only [List.mem_cons, List.mem_append] at hy
      rcases hy with rfl | rfl | rfl | rfl | rfl | hy | hy
      · omega
      · omega
      · omega
      · omega
      · omega
      · exact hx y (List.mem_of_mem_take hy)
      · exact ih (x.drop 0xFFFF) (fun u hu => hx u (List.mem_of_mem_drop hu)) y hy

theorem bytes4LE_isBytes (n : Nat) : IsBytes (bytes4LE n) := by
  intro y hy
  simp only [bytes4LE, List.mem_cons] at hy
  rcases hy with rfl | rfl | rfl | rfl | hy
  · omega
  · omega
  · omega
  · omega
  · simp at hy

theorem gzipCompress_isBytes (x : List Nat) (hx : IsBytes x) :
    IsBytes (gzipCompress x) := by
  intro y hy
  unfold gzipCompress at hy
  simp only [List.mem_append] at hy
  rcases hy with ((hy | hy) | hy) | hy
  · simp only [GZIP_HEADER, List.mem_cons, List.not_mem_nil, or_false] at hy
    rcases hy with rfl | rfl | rfl | rfl | rfl | rfl | rfl | rfl | rfl | rfl <;>
      omega
  · exact deflate_isBytes _ x hx y hy
  · exact bytes4LE_isBytes _ y hy
  · exact bytes4LE_isBytes _ y hy

theorem gzipDecompress_compress (x : List Nat) :
    gzipDecompress (gzipCompress x) = some x := by
  have hhdr : (GZIP_HEADER : List Nat).length = 10 := by decide
  have htake : (gzipCompress x).take 10 = GZIP_HEADER := by
    unfold gzipCompress
    exact List.take_left' hhdr
  have hdrop : (gzipCompress x).drop 10 =
      deflateStored (x.length + 1) x ++
        (bytes4LE (crc32 x) ++ bytes4LE (x.length % 2 ^ 32)) := by
    unfold gzipCompress
    rw [List.append_assoc]
    exact List.drop_left' hhdr
  have hflen : x.length + 1 ≤ (gzipCompress x).length := by
    have h1 := deflate_length_ge (x.length + 1) x (by omega)
    unfold gzipCompress
    simp only [List.length_append]
    have h2 : GZIP_HEADER.length = 10 := by decide
    omega
  unfold gzipDecompress
  rw [htake, if_pos rfl, hdrop]
  rw [inflate_deflate (x.length + 1) x _ _ (by omega) hflen]
  simp

/-! ### msgpack round trip -/

theorem bytesBE_length (k n : Nat) : (bytesBE k n).length = k := by
  induction k generalizing n with
  | zero => rfl
  | succ j ih => simp [bytesBE, ih]

theorem bytesBE_isBytes (k n : Nat) : IsBytes (bytesBE k n) := by
  induction k generalizing n with
  | zero => intro y hy; cases hy
  | succ j ih =>
    intro y hy
    simp only [bytesBE, List.mem_append, List.mem_cons] at hy
    rcases hy with hy | hy | hy
    · exact ih (n / 256) y hy
    · omega
    · cases hy

theorem foldBE_bytesBE (k n acc : Nat) (h : n < 2 ^ (8 * k)) :
    (bytesBE k n).foldl (fun acc b => acc * 256 + b) acc =
      acc * 2 ^ (8 * k) + n := by
  induction k generalizing n acc with
  | zero =>
    simp only [bytesBE, List.foldl_nil]
    interval_cases n
    simp
  | succ j ih =>
    simp only [bytesBE, List.foldl_append, List.foldl_cons, List.foldl_nil]
    rw [ih (n / 256) acc (by
      have : n < 2 ^ (8 * j) * 256 := by
        rw [show (8 : Nat) * (j + 1) = 8 * j + 8 from by ring, pow_add] at h
        omega
      omega)]
    rw [show (8 : Nat) * (j + 1) = 8 * j + 8 from by ring, pow_add]
    have hdm := Nat.div_add_mod n 256
    ring_nf
    omega

theorem readBE_bytesBE (k n : Nat) (rest : List Nat) (h : n < 2 ^ (8 * k)) :
    readBE k (bytesBE k n ++ rest) = some (n, rest) := by
  unfold readBE
  rw [if_pos (by rw [List.length_append, bytesBE_length]; omega)]
  rw [List.take_left' (bytesBE_length k n), List.drop_left' (bytesBE_length k n)]
  rw [foldBE_bytesBE k n 0 h]
  simp

theorem packInt_isBytes (n : Int) (h1 : -(2 ^ 63) ≤ n) (h2 : n < 2 ^ 64) :
    IsBytes (packInt n) := by
  unfold packInt
  split_ifs with p1 p2 p3 p4 p5 p6 p7 p8 p9 <;> intro y hy <;>
    simp only [List.mem_cons, List.not_mem_nil, or_false] at hy
  · rcases hy with rfl; omega
  · rcases hy with rfl | rfl <;> omega
  · rcases hy with rfl | hy
    · omega
    · exact bytesBE_isBytes 2 _ y hy
  · rcases hy with rfl | hy
    · omega
    · exact bytesBE_isBytes 4 _ y hy
  · rcases hy with rfl | hy
    · omega
    · exact bytesBE_isBytes 8 _ y hy
  · rcases hy with rfl; omega
  · rcases hy with rfl | rfl <;> omega
  · rcases hy with rfl | hy
    · omega
    · exact bytesBE_isBytes 2 _ y hy
  · rcases hy with rfl | hy
    · omega
    · exact bytesBE_isBytes 4 _ y hy
  · rcases hy with rfl | hy
    · omega
    · exact bytesBE_isBytes 8 _ y hy

theorem packStrHeader_isBytes (l : Nat) : IsBytes (packStrHeader l) := by
  unfold packStrHeader
  split_ifs with p1 p2 p3 <;> intro y hy <;>
    simp only [List.mem_cons, List.not_mem_nil, or_false] at hy
  · rcases hy with rfl; omega
  · rcases hy with rfl | rfl <;> omega
  · rcases hy with rfl | hy
    · omega
    · exact bytesBE_isBytes 2 _ y hy
  · rcases hy with rfl | hy
    · omega
    · exact bytesBE_isBytes 4 _ y hy

theorem packArrHeader_isBytes (l : Nat) : IsBytes (packArrHeader l) := by
  unfold packArrHeader
  split_ifs with p1 p2 <;> intro y hy <;>
    simp only [List.mem_cons, List.not_mem_nil, or_false] at hy
  · rcases hy with rfl; omega
  · rcases hy with rfl | hy
    · omega
    · exact bytesBE_isBytes 2 _ y hy
  · rcases hy with rfl | hy
    · omega
    · exact bytesBE_isBytes 4 _ y hy

theorem packMapHeader_isBytes (l : Nat) : IsBytes (packMapHeader l) := by
  unfold packMapHeader
  split_ifs with p1 p2 <;> intro y hy <;>
    simp only [List.mem_cons, List.not_mem_nil, or_false] at hy
  · rcases hy with rfl; omega
  · rcases hy with rfl | hy
    · omega
    · exact bytesBE_isBytes 2 _ y hy
  · rcases hy with rfl | hy
    · omega
    · exact bytesBE_isBytes 4 _ y hy

mutual

theorem packb_isBytes (v : MsgObj) (h : validObj v = true) :
    IsBytes (packb v) := by
  cases v with
  | nil =>
    intro y hy
    simp only [packb, List.mem_cons, List.not_mem_nil, or_false] at hy
    omega
  | boolean b =>
    cases b <;> intro y hy <;>
      simp only [packb, List.mem_cons, List.not_mem_nil, or_false] at hy <;>
      omega
  | int n =>
    simp only [validObj, Bool.and_eq_true, decide_eq_true_eq] at h
    exact packInt_isBytes n h.1 h.2
  | str s =>
    simp only [validObj, Bool.and_eq_true, decide_eq_true_eq,
      List.all_eq_true] at h
    intro y hy
    simp only [packb, List.mem_append] at hy
    rcases hy with hy | hy
    · exact packStrHeader_isBytes _ y hy
    · exact h.2 y hy
  | arr xs =>
    simp only [validObj, Bool.and_eq_true] at h
    intro y hy
    simp only [packb, List.mem_append] at hy
    rcases hy with hy | hy
    · exact packArrHeader_isBytes _ y hy
    · exact packList_isBytes xs h.2 y hy
  | map xs =>
    simp only [validObj, Bool.and_eq_true] at h
    intro y hy
    simp only [packb, List.mem_append] at hy
    rcases hy with hy | hy
    · exact packMapHeader_isBytes _ y hy
    · exact packPairs_isBytes xs h.2 y hy

theorem packList_isBytes (xs : MsgList) (h : validList xs = true) :
    IsBytes (packList xs) := by
  cases xs with
  | mnil => intro y hy; simp [packList] at hy
  | mcons x tl =>
    simp only [validList, Bool.and_eq_true] at h
    intro y hy
    simp only [packList, List.mem_append] at hy
    rcases hy with hy | hy
    · exact packb_isBytes x h.1 y hy
    · exact packList_isBytes tl h.2 y hy

theorem packPairs_isBytes (xs : MsgPairs) (h : validPairs xs = true) :
    IsBytes (packPairs xs) := by
  cases xs with
  | pnil => intro y hy; simp [packPairs] at hy
  | pcons k v tl =>
    simp only [validPairs, Bool.and_eq_true] at h
    intro y hy
    simp only [packPairs, List.mem_append] at hy
    rcases hy with (hy | hy) | hy
    · exact packb_isBytes k h.1.1 y hy
    · exact packb_isBytes v h.1.2 y hy
    · exact packPairs_isBytes tl h.2 y hy

end

theorem packInt_length_pos (n : Int) : 1 ≤ (packInt n).length := by
  unfold packInt
  split_ifs <;> simp [bytesBE_length]

theorem packb_length_pos (v : MsgObj) : 1 ≤ (packb v).length := by
  cases v with
  | nil => simp [packb]
  | boolean b => cases b <;> simp [packb]
  | int n => exact packInt_length_pos n
  | str s =>
    simp only [packb, List.length_append]
    have : 1 ≤ (packStrHeader s.length).length := by
      unfold packStrHeader
      split_ifs <;> simp [bytesBE_length]
    omega
  | arr xs =>
    simp only [packb, List.length_append]
    have : 1 ≤ (packArrHeader (msgListLength xs)).length := by
      unfold packArrHeader
      split_ifs <;> simp [bytesBE_length]
    omega
  | map xs =>
    simp only [packb, List.length_append]
    have : 1 ≤ (packMapHeader (msgPairsLength xs)).length := by
      unfold packMapHeader
      split_ifs <;> simp [bytesBE_length]
    omega

theorem parse_packInt (f : Nat) (n : Int) (rest : List Nat)
    (h1 : -(2 ^ 63) ≤ n) (h2 : n < 2 ^ 64) :
    parseObj (f + 1) (packInt n ++ rest) = some (.int n, rest) := by
  unfold packInt
  split_ifs with p1 p2 p3 p4 p5 p6 p7 p8 p9
  · simp only [List.cons_append, List.nil_append, parseObj]
    rw [if_pos (by omega : n.toNat < 0x80), Int.toNat_of_nonneg p1]
  · simp only [List.cons_append, List.nil_append, parseObj]
    norm_num
    exact p1
  · have hr := readBE_bytesBE 2 n.toNat rest (by omega)
    simp only [List.cons_append, parseObj]
    norm_num [hr]
    exact p1
  · have hr := readBE_bytesBE 4 n.toNat rest (by omega)
    simp only [List.cons_append, parseObj]
    norm_num [hr]
    exact p1
  · have hr := readBE_bytesBE 8 n.toNat rest (by omega)
    simp only [List.cons_append, parseObj]
    norm_num [hr]
    exact p1
  · simp only [List.cons_append, List.nil_append, parseObj]
    rw [if_neg (by omega : ¬ (n + 256).toNat < 0x80),
      if_neg (by omega : ¬ (n + 256).toNat < 0x90),
      if_neg (by omega : ¬ (n + 256).toNat < 0xA0),
      if_neg (by omega : ¬ (n + 256).toNat < 0xC0),
      if_neg (by omega : ¬ (n + 256).toNat = 0xC0),
      if_neg (by omega : ¬ (n + 256).toNat = 0xC2),
      if_neg (by omega : ¬ (n + 256).toNat = 0xC3),
      if_neg (by omega : ¬ (n + 256).toNat = 0xCC),
      if_neg (by omega : ¬ (n + 256).toNat = 0xCD),
      if_neg (by omega : ¬ (n + 256).toNat = 0xCE),
      if_neg (by omega : ¬ (n + 256).toNat = 0xCF),
      if_neg (by omega : ¬ (n + 256).toNat = 0xD0),
      if_neg (by omega : ¬ (n + 256).toNat = 0xD1),
      if_neg (by omega : ¬ (n + 256).toNat = 0xD2),
      if_neg (by omega : ¬ (n + 256).toNat = 0xD3),
      if_neg (by omega : ¬ (n + 256).toNat = 0xD9),
      if_neg (by omega : ¬ (n + 256).toNat = 0xDA),
      if_neg (by omega : ¬ (n + 256).toNat = 0xDB),
      if_neg (by omega : ¬ (n + 256).toNat = 0xDC),
      if_neg (by omega : ¬ (n + 256).toNat = 0xDD),
      if_neg (by omega : ¬ (n + 256).toNat = 0xDE),
      if_neg (by omega : ¬ (n + 256).toNat = 0xDF),
      if_pos (by omega : 0xE0 ≤ (n + 256).toNat ∧ (n + 256).toNat ≤ 0xFF)]
    simp only [Option.some.injEq, Prod.mk.injEq, MsgObj.int.injEq, and_true]
    omega
  · simp only [List.cons_append, List.nil_append, parseObj]
    norm_num [sintOf]
    rw [if_neg (by omega : ¬ (n + 256).toNat < 128)]
    omega
  · have hr := readBE_bytesBE 2 (n + 65536).toNat rest (by omega)
    simp only [List.cons_append, parseObj]
    norm_num [sintOf]
    refine ⟨(n + 65536).toNat, hr, ?_⟩
    rw [if_neg (by omega : ¬ (n + 65536).toNat < 32768)]
    omega
  · have hr := readBE_bytesBE 4 (n + 4294967296).toNat rest (by omega)
    simp only [List.cons_append, parseObj]
    norm_num [sintOf]
    refine ⟨(n + 4294967296).toNat, hr, ?_⟩
    rw [if_neg (by omega : ¬ (n + 4294967296).toNat < 2147483648)]
    omega
  · have hr := readBE_bytesBE 8 (n + 18446744073709551616).toNat rest (by omega)
    simp only [List.cons_append, parseObj]
    norm_num [sintOf]
    refine ⟨(n + 18446744073709551616).toNat, hr, ?_⟩
    rw [if_neg (by omega :
      ¬ (n + 18446744073709551616).toNat < 9223372036854775808)]
    omega

theorem readStr_exact (s rest : List Nat) :
    readStr s.length (s ++ rest) = some (.str s, rest) := by
  unfold readStr
  rw [if_pos (by rw [List.length_append]; omega)]
  rw [List.take_left, List.drop_left]

theorem parse_packStr (f : Nat) (s rest : List Nat)
    (hl : s.length < 2 ^ 32) :
    parseObj (f + 1) ((packStrHeader s.length ++ s) ++ rest) =
      some (.str s, rest) := by
  unfold packStrHeader
  split_ifs with p1 p2 p3
  · simp only [List.cons_append, List.nil_append, List.append_assoc, parseObj]
    rw [if_neg (by omega : ¬ 0xA0 + s.length < 0x80),
      if_neg (by omega : ¬ 0xA0 + s.length < 0x90),
      if_neg (by omega : ¬ 0xA0 + s.length < 0xA0),
      if_pos (by omega : 0xA0 + s.length < 0xC0)]
    rw [show 0xA0 + s.length - 0xA0 = s.length from by omega]
    exact readStr_exact s rest
  · simp only [List.cons_append, List.nil_append, List.append_assoc, parseObj]
    norm_num
    exact readStr_exact s rest
  · have hr := readBE_bytesBE 2 s.length (s ++ rest) (by omega)
    simp only [List.cons_append, List.append_assoc, parseObj]
    norm_num [hr]
    exact readStr_exact s rest
  · have hr := readBE_bytesBE 4 s.length (s ++ rest) (by omega)
    simp only [List.cons_append, List.append_assoc, parseObj]
    norm_num [hr]
    exact readStr_exact s rest

theorem parse_pack (fuel : Nat) :
    (∀ v rest, validObj v = true → 2 * (packb v).length ≤ fuel →
      parseObj fuel (packb v ++ rest) = some (v, rest)) ∧
    (∀ xs rest, validList xs = true →
      2 * (packList xs).length + 1 ≤ fuel →
      parseList fuel (msgListLength xs) (packList xs ++ rest) =
        some (xs, rest)) ∧
    (∀ xs rest, validPairs xs = true →
      2 * (packPairs xs).length + 1 ≤ fuel →
      parsePairs fuel (msgPairsLength xs) (packPairs xs ++ rest) =
        some (xs, rest)) := by
  induction fuel using Nat.strong_induction_on with
  | _ fuel ih =>
  cases fuel with
  | zero =>
    refine ⟨?_, ?_, ?_⟩
    · intro v rest _ hf
      have := packb_length_pos v
      omega
    · intro xs rest _ hf
      omega
    · intro xs rest _ hf
      omega
  | succ f =>
    refine ⟨?_, ?_, ?_⟩
    · intro v rest hv hf
      cases v with
      | nil =>
        simp only [packb, List.cons_append, List.nil_append, parseObj]
        norm_num
      | boolean b =>
        cases b <;>
          simp only [packb, List.cons_append, List.nil_append, parseObj] <;>
          norm_num
      | int n =>
        simp only [validObj, Bool.and_eq_true, decide_eq_true_eq] at hv
        exact parse_packInt f n rest hv.1 hv.2
      | str s =>
        simp only [validObj, Bool.and_eq_true, decide_eq_true_eq] at hv
        exact parse_packStr f s rest hv.1
      | arr xs =>
        simp only [validObj, Bool.and_eq_true, decide_eq_true_eq] at hv
        have hQ := (ih f (by omega)).2.1
        simp only [packb, List.length_append] at hf
        have hhl : 1 ≤ (packArrHeader (msgListLength xs)).length := by
          unfold packArrHeader
          split_ifs <;> simp [bytesBE_length]
        show parseObj (f + 1)
          ((packArrHeader (msgListLength xs) ++ packList xs) ++ rest) = _
        unfold packArrHeader
        split_ifs with q1 q2
        · simp only [List.cons_append, List.nil_append, List.append_assoc,
            parseObj]
          rw [if_neg (by omega : ¬ 0x90 + msgListLength xs < 0x80),
            if_neg (by omega : ¬ 0x90 + msgListLength xs < 0x90),
            if_pos (by omega : 0x90 + msgListLength xs < 0xA0)]
          rw [show 0x90 + msgListLength xs - 0x90 = msgListLength xs from by
            omega]
          rw [hQ xs rest hv.2 (by omega)]
          rfl
        · have hr := readBE_bytesBE 2 (msgListLength xs)
            (packList xs ++ rest) (by omega)
          simp only [List.cons_append, List.append_assoc, parseObj]
          norm_num [hr]
          rw [hQ xs rest hv.2 (by omega)]
        · have hr := readBE_bytesBE 4 (msgListLength xs)
            (packList xs ++ rest) (by omega)
          simp only [List.cons_append, List.append_assoc, parseObj]
          norm_num [hr]
          rw [hQ xs rest hv.2 (by omega)]
      | map xs =>
        simp only [validObj, Bool.and_eq_true, decide_eq_true_eq] at hv
        have hR := (ih f (by omega)).2.2
        simp only [packb, List.length_append] at hf
        have hhl : 1 ≤ (packMapHeader (msgPairsLength xs)).length := by
          unfold packMapHeader
          split_ifs <;> simp [bytesBE_length]
        show parseObj (f + 1)
          ((packMapHeader (msgPairsLength xs) ++ packPairs xs) ++ rest) = _
        unfold packMapHeader
        split_ifs with q1 q2
        · simp only [List.cons_append, List.nil_append, List.append_assoc,
            parseObj]
          rw [if_neg (by omega : ¬ 0x80 + msgPairsLength xs < 0x80),
            if_pos (by omega : 0x80 + msgPairsLength xs < 0x90)]
          rw [show 0x80 + msgPairsLength xs - 0x80 = msgPairsLength xs from by
            omega]
          rw [hR xs rest hv.2 (by omega)]
          rfl
        · have hr := readBE_bytesBE 2 (msgPairsLength xs)
            (packPairs xs ++ rest) (by omega)
          simp only [List.cons_append, List.append_assoc, parseObj]
          norm_num [hr]
          rw [hR xs rest hv.2 (by omega)]
        · have hr := readBE_bytesBE 4 (msgPairsLength xs)
            (packPairs xs ++ rest) (by omega)
          simp only [List.cons_append, List.append_assoc, parseObj]
          norm_num [hr]
          rw [hR xs rest hv.2 (by omega)]
    · intro xs rest hx hf
      cases xs with
      | mnil => rfl
      | mcons h t =>
        simp only [validList, Bool.and_eq_true] at hx
        simp only [packList, List.length_append] at hf
        have hp1 := packb_length_pos h
        show parseList (f + 1) (msgListLength t + 1)
          ((packb h ++ packList t) ++ rest) = _
        simp only [List.append_assoc, parseList]
        rw [(ih f (by omega)).1 h (packList t ++ rest) hx.1 (by omega)]
        simp only [Option.some_bind]
        rw [(ih f (by omega)).2.1 t rest hx.2 (by omega)]
        rfl
    · intro xs rest hx hf
      cases xs with
      | pnil => rfl
      | pcons k v t =>
        simp only [validPairs, Bool.and_eq_true] at hx
        simp only [packPairs, List.length_append] at hf
        have hp1 := packb_length_pos k
        have hp2 := packb_length_pos v
        show parsePairs (f + 1) (msgPairsLength t + 1)
          ((packb k ++ packb v ++ packPairs t) ++ rest) = _
        simp only [List.append_assoc, parsePairs]
        rw [(ih f (by omega)).1 k (packb v ++ (packPairs t ++ rest)) hx.1.1
          (by omega)]
        simp only [Option.some_bind]
        rw [(ih f (by omega)).1 v (packPairs t ++ rest) hx.1.2 (by omega)]
        simp only [Option.some_bind]
        rw [(ih f (by omega)).2.2 t rest hx.2 (by omega)]
        rfl

theorem unpackb_packb (v : MsgObj) (hv : validObj v = true) :
    unpackb (packb v) = some v := by
  unfold unpackb
  have h := (parse_pack (2 * (packb v).length + 2)).1 v [] hv (by omega)
  rw [List.append_nil] at h
  rw [h]

/-- C1 (amended): for every well-formed battle-result record whose msgpack
serialization length `L` satisfies `L % 2^32 / 2^24 = 0` or `> 32` — in
particular every record serializing below 16 MiB — decoding the sealed
encoding recovers the record exactly: for any 32-byte block permutation
`E`/`D` (the Rijndael cipher abstracted), unsealing `cat_game5` of the
gzipped msgpack encoding deserializes back to the record. -/
theorem seal_unseal_roundtrip (E D : List Nat → List Nat)
    (hE : BlockCipher32 E) (hD : Inverts32 D E) (R : MsgObj)
    (hV : validObj R = true)
    (hSize : (packb R).length % 2 ^ 32 / 2 ^ 24 = 0 ∨
      32 < (packb R).length % 2 ^ 32 / 2 ^ 24) :
    unsealResult D (sealResult E R) = some R := by
  unfold sealResult unsealResult
  rw [mouse_cat E D hE hD _ (gzipCompress_isBytes _ (packb_isBytes R hV))]
  rw [stripPad_skip _ _ (gzipCompress_getLast (packb R)) hSize]
  rw [gzipDecompress_compress]
  simp only [Option.some_bind]
  exact unpackb_packb R hV

/-- Witness for `seal_unseal_roundtrip`: the identity block permutation and
the record `{"a": 1}`. -/
theorem seal_unseal_roundtrip_witness :
    unsealResult id (sealResult id
        (MsgObj.map (.pcons (.str [97]) (.int 1) .pnil))) =
      some (MsgObj.map (.pcons (.str [97]) (.int 1) .pnil)) :=
  seal_unseal_roundtrip id id (fun _ hl hb => ⟨hl, hb⟩) (fun _ _ _ => rfl)
    _ (by decide) (Or.inl (by decide))

/-! ### The round trip fails on 16 MiB records

For a record whose serialization length `L` has `L % 2^32 / 2^24` in
`1..=32`, the gzip stream's final ISIZE byte lies in the manual strip's
"valid padding" range, so `mouse_game5` cuts real bytes off the stream and
decompression fails — for every block cipher. -/

/-- A 16 MiB byte string. -/
def bigStr : List Nat := List.replicate (2 ^ 24) 97

/-- The record `{"d": "aaaa…"}` with a `2^24`-byte value. -/
def bigRecord : MsgObj := .map (.pcons (.str [100]) (.str bigStr) .pnil)

theorem validObj_single_pair_map (k v : MsgObj) (hk : validObj k = true)
    (hv : validObj v = true) :
    validObj (.map (.pcons k v .pnil)) = true := by
  simp [validObj, validPairs, msgPairsLength, hk, hv]

theorem validObj_str_of (s : List Nat) (h1 : s.length < 2 ^ 32)
    (h2 : ∀ b ∈ s, b < 256) : validObj (.str s) = true := by
  simp only [validObj, Bool.and_eq_true, decide_eq_true_eq, List.all_eq_true]
  exact ⟨h1, h2⟩

theorem bigStr_length : bigStr.length = 2 ^ 24 := by
  simp only [bigStr, List.length_replicate]

theorem bigRecord_valid : validObj bigRecord = true := by
  unfold bigRecord
  apply validObj_single_pair_map
  · apply validObj_str_of
    · norm_num
    · intro b hb
      simp only [List.mem_cons, List.not_mem_nil, or_false] at hb
      subst hb
      norm_num
  · apply validObj_str_of
    · rw [bigStr_length]
      norm_num
    · intro b hb
      rw [List.eq_of_mem_replicate (show b ∈ List.replicate (2 ^ 24) 97 from by
        simpa only [bigStr] using hb)]
      norm_num

theorem packb_single_pair_map_length (k v : MsgObj) :
    (packb (.map (.pcons k v .pnil))).length =
      (packMapHeader 1).length + ((packb k).length + (packb v).length) := by
  simp [packb, packPairs, msgPairsLength]

theorem packb_str_length (s : List Nat) :
    (packb (.str s)).length = (packStrHeader s.length).length + s.length := by
  simp [packb]

theorem packb_bigRecord_length : (packb bigRecord).length = 16777224 := by
  unfold bigRecord
  rw [packb_single_pair_map_length, packb_str_length, packb_str_length,
    bigStr_length]
  norm_num [packMapHeader, packStrHeader, bytesBE_length]

theorem gzipCompress_truncate_one (p : List Nat) :
    (gzipCompress p).take ((gzipCompress p).length - 1) =
      ((GZIP_HEADER ++ deflateStored (p.length + 1) p) ++
        bytes4LE (crc32 p)) ++ (bytes4LE (p.length % 2 ^ 32)).take 3 := by
  unfold gzipCompress
  have hlen4 : (bytes4LE (p.length % 2 ^ 32)).length = 4 := by
    simp [bytes4LE]
  have hfront : (((GZIP_HEADER ++ deflateStored (p.length + 1) p) ++
      bytes4LE (crc32 p)) ++ bytes4LE (p.length % 2 ^ 32)).length - 1 =
      ((GZIP_HEADER ++ deflateStored (p.length + 1) p) ++
        bytes4LE (crc32 p)).length + 3 := by
    simp only [List.length_append, hlen4]
    omega
  rw [hfront, List.take_append]

theorem gzipDecompress_truncated (n : Nat) (p : List Nat)
    (hn : p.length + 1 ≤ n) :
    gzipDecompress (((GZIP_HEADER ++ deflateStored n p) ++
      bytes4LE (crc32 p)) ++ (bytes4LE (p.length % 2 ^ 32)).take 3) =
      none := by
  unfold gzipDecompress
  have hhdr : (GZIP_HEADER : List Nat).length = 10 := by decide
  have htake : ((((GZIP_HEADER ++ deflateStored n p) ++
      bytes4LE (crc32 p)) ++ (bytes4LE (p.length % 2 ^ 32)).take 3)).take 10 =
      GZIP_HEADER := List.take_left' hhdr
  have hdrop : ((((GZIP_HEADER ++ deflateStored n p) ++
      bytes4LE (crc32 p)) ++ (bytes4LE (p.length % 2 ^ 32)).take 3)).drop 10 =
      deflateStored n p ++ (bytes4LE (crc32 p) ++
        (bytes4LE (p.length % 2 ^ 32)).take 3) := by
    rw [List.append_assoc, List.append_assoc]
    exact List.drop_left' hhdr
  rw [htake, if_pos rfl, hdrop]
  rw [inflate_deflate n p _ _ hn (by
    have h1 := deflate_length_ge n p hn
    simp only [List.length_append, List.length_take]
    omega)]
  show (if bytes4LE (crc32 p) ++ (bytes4LE (p.length % 2 ^ 32)).take 3 =
      bytes4LE (crc32 p) ++ bytes4LE (p.length % 2 ^ 32) then
      some p else none) = (none : Option (List Nat))
  rw [if_neg (by
    intro hcon
    have := congrArg List.length hcon
    simp only [List.length_append, List.length_take, bytes4LE,
      List.length_cons, List.length_nil] at this
    omega)]

theorem unseal_seal_big (E D : List Nat → List Nat) (hE : BlockCipher32 E)
    (hD : Inverts32 D E) :
    unsealResult D (sealResult E bigRecord) = none := by
  unfold sealResult unsealResult
  rw [mouse_cat E D hE hD _
    (gzipCompress_isBytes _ (packb_isBytes bigRecord bigRecord_valid))]
  have hlast : (gzipCompress (packb bigRecord)).getLast? = some 1 := by
    rw [gzipCompress_getLast, packb_bigRecord_length]
    norm_num
  rw [stripPad_strip _ 1 hlast (by norm_num) (by norm_num)]
  rw [gzipCompress_truncate_one (packb bigRecord)]
  rw [gzipDecompress_truncated ((packb bigRecord).length + 1)
    (packb bigRecord) (Nat.le_refl _)]
  rfl

/-- C1 (counterexample): the round trip does not hold for every structured
record — for the 16 MiB record `bigRecord` (serialization length
`0x1000008`, whose gzip ISIZE top byte is `1`), the manual padding strip of
`mouse_game5` removes a real stream byte and unsealing fails, whichever
32-byte block permutation plays the role of the Rijndael cipher. -/
theorem seal_unseal_not_universal :
    ¬ (∀ E D : List Nat → List Nat, BlockCipher32 E → Inverts32 D E →
      ∀ R : MsgObj, validObj R = true →
        unsealResult D (sealResult E R) = some R) := by
  intro h
  have h2 := h id id (fun _ hl hb => ⟨hl, hb⟩) (fun _ _ _ => rfl)
    bigRecord bigRecord_valid
  rw [unseal_seal_big id id (fun _ hl hb => ⟨hl, hb⟩) (fun _ _ _ => rfl)]
    at h2
  exact Option.noConfusion h2
